import Mathlib

/-
  Verification of the brewsync core: manifest parser/writer
  (internal/brewfile/parser.go, writer), diff engine
  (internal/brewfile: Diff, DiffByType, FilterIgnored) and the
  ignore-file mutation API (internal/config/ignore.go).

  Strings are modelled as lists of characters (`Str`).  Go maps whose
  only observed behaviour is lookup are modelled as association lists
  (update-or-append preserves Go's "replace the value under the key"
  semantics) or, for `map[string]bool` used as a set with default
  `false`, as boolean-valued functions.
-/

namespace BrewSync

/-- Character strings, modelled as lists of characters. -/
abbrev Str := List Char

/-- Conversion from a Lean string literal, for concrete test inputs. -/
def strOf (s : String) : Str := s.toList

/- ---------------------------------------------------------------
   Data model: internal/brewfile/types.go
   --------------------------------------------------------------- -/

/-- Package from types.go.  The Go field `Type` is called `ptype`
here because `Type` is reserved in Lean; all other fields keep their
source names.  `Options` (a Go `map[string]string`) is an association
list with unique keys maintained by `optInsert`. -/
structure Package where
  ptype : Str
  name : Str
  fullName : Str := []
  options : List (Str × Str) := []
  description : Str := []
deriving Repr, DecidableEq

/-- NewPackage from types.go. -/
def NewPackage (t n : Str) : Package :=
  { ptype := t, name := n }

/-- Assignment `m[k] = v` on a Go map modelled as an association
list: replace the value if the key is present, append otherwise. -/
def optInsert (m : List (Str × Str)) (k v : Str) : List (Str × Str) :=
  match m with
  | [] => [(k, v)]
  | (k', v') :: rest =>
    if k' = k then (k, v) :: rest else (k', v') :: optInsert rest k v

/-- Go map lookup `m[k]` on an association list. -/
def optLookup (m : List (Str × Str)) (k : Str) : Option Str :=
  match m with
  | [] => none
  | (k', v') :: rest => if k' = k then some v' else optLookup rest k

/-- packageKey from parser.go: `string(pkg.Type) + ":" + pkg.Name`. -/
def packageKey (p : Package) : Str := p.ptype ++ ':' :: p.name

/-- Membership of an identity key in the key-indexed map that Diff
builds from a package list (`_, exists := m[key]`). -/
def containsKey (ps : List Package) (k : Str) : Bool :=
  ps.any (fun q => packageKey q == k)

/-- Packages.Filter from types.go: an empty type list selects every
package; otherwise keep the packages whose type is listed. -/
def Filter (ps : List Package) (types : List Str) : List Package :=
  if types = [] then ps
  else ps.filter (fun p => types.contains p.ptype)

/- ---------------------------------------------------------------
   Diff engine: internal/brewfile (Diff, DiffByType, FilterIgnored)
   --------------------------------------------------------------- -/

/-- DiffResult from the diff engine. -/
structure DiffResult where
  additions : List Package
  removals : List Package
  common : List Package
deriving Repr, DecidableEq

/-- IsEmpty: true iff there are no additions and no removals. -/
def DiffResult.IsEmpty (d : DiffResult) : Bool :=
  d.additions.isEmpty && d.removals.isEmpty

/-- Diff: the source loop appends each source package to Additions
when its key is absent from the current-side key map and to Common
otherwise; the current loop appends to Removals the packages whose
key is absent from the source-side key map.  The append loops keep
input order, i.e. they are filters. -/
def Diff (source current : List Package) : DiffResult :=
  { additions := source.filter (fun p => !(containsKey current (packageKey p)))
  , removals := current.filter (fun p => !(containsKey source (packageKey p)))
  , common := source.filter (fun p => containsKey current (packageKey p)) }

/-- DiffByType: filter both lists to the given types, then diff. -/
def DiffByType (source current : List Package) (types : List Str) : DiffResult :=
  Diff (Filter source types) (Filter current types)

/-- filterByKey: drop the packages whose key is excluded.  The Go
`map[string]bool` with its default-false lookup is the boolean
function `excluded`. -/
def filterByKey (pkgs : List Package) (excluded : Str → Bool) : List Package :=
  pkgs.filter (fun p => !(excluded (packageKey p)))

/-- DiffResult.FilterIgnored: filter Additions and Removals by key,
keep Common as is. -/
def DiffResult.FilterIgnored (d : DiffResult) (ignoredPackages : Str → Bool) : DiffResult :=
  { additions := filterByKey d.additions ignoredPackages
  , removals := filterByKey d.removals ignoredPackages
  , common := d.common }

/-- DiffResult.FilterMachineSpecific: same removal logic with the
machine-pinned key set. -/
def DiffResult.FilterMachineSpecific (d : DiffResult) (machinePackages : Str → Bool) : DiffResult :=
  { additions := filterByKey d.additions machinePackages
  , removals := filterByKey d.removals machinePackages
  , common := d.common }

/- ---------------------------------------------------------------
   Ignore-file data model: internal/config/types.go
   --------------------------------------------------------------- -/

/-- PackageIgnoreList from config/types.go: ignored package names per
category. -/
structure PackageIgnoreList where
  tap : List Str := []
  brew : List Str := []
  cask : List Str := []
  vscode : List Str := []
  cursor : List Str := []
  antigravity : List Str := []
  go : List Str := []
  mas : List Str := []
deriving Repr, DecidableEq

/-- IgnoreConfig from config/types.go. -/
structure IgnoreConfig where
  categories : List Str := []
  packages : PackageIgnoreList := {}
deriving Repr, DecidableEq

/-- IgnoreFile from config/types.go.  The Go `Machines` map is an
association list with update-or-append assignment (`aset`). -/
structure IgnoreFile where
  global : IgnoreConfig := {}
  machines : List (Str × IgnoreConfig) := []
deriving Repr, DecidableEq

/-- contains from ignore.go. -/
def contains (slice : List Str) (item : Str) : Bool :=
  slice.any (fun s => s == item)

/-- removeString from ignore.go: keep the entries different from the
item (the Go loop appends in order, i.e. filters). -/
def removeString (slice : List Str) (item : Str) : List Str :=
  slice.filter (fun s => !(s == item))

/-- The `if !contains { append }` pattern used by every add
operation in ignore.go. -/
def addString (slice : List Str) (item : Str) : List Str :=
  if contains slice item then slice else slice ++ [item]

/-- splitPackageID's scan for the first colon. -/
def splitAtColon : Str → Option (Str × Str)
  | [] => none
  | c :: cs =>
    if c = ':' then some ([], cs)
    else
      match splitAtColon cs with
      | some (a, b) => some (c :: a, b)
      | none => none

/-- splitPackageID from ignore.go: split on the first colon only;
without a colon the whole string is returned as a single part. -/
def splitPackageID (pkgID : Str) : List Str :=
  match splitAtColon pkgID with
  | some (a, b) => [a, b]
  | none => [pkgID]

/-- The error message of parsePackageID
(`invalid package ID format: %s (expected type:name)`). -/
def errMsg (pkgID : Str) : Str :=
  strOf "invalid package ID format: " ++ pkgID ++ strOf " (expected type:name)"

/-- parsePackageID from ignore.go: error unless the split yields
exactly two parts. -/
def parsePackageID (pkgID : Str) : Except Str (Str × Str) :=
  match splitPackageID pkgID with
  | [a, b] => Except.ok (a, b)
  | _ => Except.error (errMsg pkgID)

/-- addPackageToList from ignore.go: dispatch on the category token;
an unknown token falls through the switch and changes nothing. -/
def addPackageToList (l : PackageIgnoreList) (pkgType pkgName : Str) : PackageIgnoreList :=
  if pkgType = strOf "tap" then { l with tap := addString l.tap pkgName }
  else if pkgType = strOf "brew" then { l with brew := addString l.brew pkgName }
  else if pkgType = strOf "cask" then { l with cask := addString l.cask pkgName }
  else if pkgType = strOf "vscode" then { l with vscode := addString l.vscode pkgName }
  else if pkgType = strOf "cursor" then { l with cursor := addString l.cursor pkgName }
  else if pkgType = strOf "antigravity" then { l with antigravity := addString l.antigravity pkgName }
  else if pkgType = strOf "go" then { l with go := addString l.go pkgName }
  else if pkgType = strOf "mas" then { l with mas := addString l.mas pkgName }
  else l

/-- removePackageFromList from ignore.go. -/
def removePackageFromList (l : PackageIgnoreList) (pkgType pkgName : Str) : PackageIgnoreList :=
  if pkgType = strOf "tap" then { l with tap := removeString l.tap pkgName }
  else if pkgType = strOf "brew" then { l with brew := removeString l.brew pkgName }
  else if pkgType = strOf "cask" then { l with cask := removeString l.cask pkgName }
  else if pkgType = strOf "vscode" then { l with vscode := removeString l.vscode pkgName }
  else if pkgType = strOf "cursor" then { l with cursor := removeString l.cursor pkgName }
  else if pkgType = strOf "antigravity" then { l with antigravity := removeString l.antigravity pkgName }
  else if pkgType = strOf "go" then { l with go := removeString l.go pkgName }
  else if pkgType = strOf "mas" then { l with mas := removeString l.mas pkgName }
  else l

/-- Lookup in the Machines association list (Go map read). -/
def alookup (ms : List (Str × IgnoreConfig)) (k : Str) : Option IgnoreConfig :=
  match ms with
  | [] => none
  | (k', v') :: rest => if k' = k then some v' else alookup rest k

/-- Assignment in the Machines association list (Go map write):
replace under an existing key, append otherwise. -/
def aset (ms : List (Str × IgnoreConfig)) (k : Str) (v : IgnoreConfig) :
    List (Str × IgnoreConfig) :=
  match ms with
  | [] => [(k, v)]
  | (k', v') :: rest => if k' = k then (k, v) :: rest else (k', v') :: aset rest k v

/-- AddCategoryIgnore from ignore.go, with the load/save I/O elided:
the loaded IgnoreFile is the argument and the file that would be
saved is the result. -/
def AddCategoryIgnore (f : IgnoreFile) (machine category : Str) (global : Bool) : IgnoreFile :=
  if global || machine.isEmpty then
    { f with global := { f.global with categories := addString f.global.categories category } }
  else
    let mi := (alookup f.machines machine).getD {}
    let mi2 := { mi with categories := addString mi.categories category }
    { f with machines := aset f.machines machine mi2 }

/-- RemoveCategoryIgnore from ignore.go (I/O elided as above). -/
def RemoveCategoryIgnore (f : IgnoreFile) (machine category : Str) (global : Bool) : IgnoreFile :=
  if global || machine.isEmpty then
    { f with global := { f.global with categories := removeString f.global.categories category } }
  else
    match alookup f.machines machine with
    | some mi =>
      let mi2 := { mi with categories := removeString mi.categories category }
      { f with machines := aset f.machines machine mi2 }
    | none => f

/-- AddPackageIgnore from ignore.go (I/O elided as above). -/
def AddPackageIgnore (f : IgnoreFile) (machine pkgID : Str) (global : Bool) :
    Except Str IgnoreFile :=
  match parsePackageID pkgID with
  | Except.error e => Except.error e
  | Except.ok (pkgType, pkgName) =>
    if global || machine.isEmpty then
      let g2 := { f.global with packages := addPackageToList f.global.packages pkgType pkgName }
      Except.ok { f with global := g2 }
    else
      let mi := (alookup f.machines machine).getD {}
      let mi2 := { mi with packages := addPackageToList mi.packages pkgType pkgName }
      Except.ok { f with machines := aset f.machines machine mi2 }

/-- RemovePackageIgnore from ignore.go (I/O elided as above). -/
def RemovePackageIgnore (f : IgnoreFile) (machine pkgID : Str) (global : Bool) :
    Except Str IgnoreFile :=
  match parsePackageID pkgID with
  | Except.error e => Except.error e
  | Except.ok (pkgType, pkgName) =>
    if global || machine.isEmpty then
      let g2 := { f.global with packages := removePackageFromList f.global.packages pkgType pkgName }
      Except.ok { f with global := g2 }
    else
      match alookup f.machines machine with
      | some mi =>
        let mi2 := { mi with packages := removePackageFromList mi.packages pkgType pkgName }
        Except.ok { f with machines := aset f.machines machine mi2 }
      | none => Except.ok f

deriving instance DecidableEq for Except

/- ---------------------------------------------------------------
   Concrete packages used in tests and counterexamples
   --------------------------------------------------------------- -/

def brewGit : Package := NewPackage (strOf "brew") (strOf "git")

def brewGitDescX : Package :=
  { ptype := strOf "brew", name := strOf "git", description := strOf "x" }

def brewGitDescY : Package :=
  { ptype := strOf "brew", name := strOf "git", description := strOf "y" }

/-- The ignore file produced by adding cask:app to the global scope
of an empty file. -/
def caskAppFile : IgnoreFile :=
  { global := { packages := { cask := [strOf "app"] } } }

/-- The eight category tokens known to the ignore-list switch. -/
def knownPackageCategories : List Str :=
  [strOf "tap", strOf "brew", strOf "cask", strOf "vscode",
    strOf "cursor", strOf "antigravity", strOf "go", strOf "mas"]

/- ---------------------------------------------------------------
   Manifest parser: internal/brewfile/parser.go
   --------------------------------------------------------------- -/

/-- The whitespace class of Go regexp `\s` ([\t\n\f\r ]). -/
def isSpaceRe (c : Char) : Bool :=
  c = ' ' || c = '\t' || c = '\n' || c = '\x0c' || c = '\r'

/-- The whitespace class of strings.TrimSpace and of the fmt
scanner's space skip: Go unicode.IsSpace, i.e. the Unicode
White_Space property — '\t'..'\r' and space, NEL (U+0085), NO-BREAK
SPACE (U+00A0), OGHAM SPACE MARK (U+1680), EN QUAD..HAIR SPACE
(U+2000..U+200A), LINE and PARAGRAPH SEPARATOR (U+2028, U+2029),
NARROW NO-BREAK SPACE (U+202F), MEDIUM MATHEMATICAL SPACE (U+205F)
and IDEOGRAPHIC SPACE (U+3000). -/
def isSpaceUni (c : Char) : Bool :=
  c = ' ' || c = '\t' || c = '\n' || c.toNat = 0x0b || c.toNat = 0x0c || c = '\r' ||
  c.toNat = 0x85 || c.toNat = 0xa0 || c.toNat = 0x1680 ||
  (0x2000 ≤ c.toNat && c.toNat ≤ 0x200a) ||
  c.toNat = 0x2028 || c.toNat = 0x2029 || c.toNat = 0x202f || c.toNat = 0x205f ||
  c.toNat = 0x3000

/-- The word class of Go regexp `\w` ([0-9A-Za-z_]). -/
def isWordRe (c : Char) : Bool := c.isAlphanum || c = '_'

/-- Drop the longest prefix of characters satisfying p. -/
def trimLeftBy (p : Char → Bool) (s : Str) : Str := s.dropWhile p

/-- Drop the longest suffix of characters satisfying p. -/
def trimRightBy (p : Char → Bool) (s : Str) : Str :=
  (s.reverse.dropWhile p).reverse

/-- Trim on both ends (strings.TrimSpace / strings.Trim). -/
def trimBy (p : Char → Bool) (s : Str) : Str := trimRightBy p (trimLeftBy p s)

/-- strings.TrimSpace. -/
def trimSpace (s : Str) : Str := trimBy isSpaceUni s

/-- The cutset of parseValueAsString: double and single quote. -/
def isQuoteCut (c : Char) : Bool := (strOf "\"'").contains c

/-- parseValueAsString from parser.go: strings.Trim(value, quotes). -/
def parseValueAsString (value : Str) : Str := trimBy isQuoteCut value

/-- bufio.ScanLines drops one trailing carriage return per line. -/
def dropCR (s : Str) : Str :=
  match s.reverse with
  | '\r' :: rest => rest.reverse
  | _ => s

/-- The token stream of bufio.Scanner with ScanLines (before the
carriage-return strip): split at each newline; a trailing newline
does not produce a final empty token, but interior empty lines do. -/
def goLines : Str → List Str
  | [] => []
  | c :: cs =>
    if c = '\n' then [] :: goLines cs
    else
      match goLines cs with
      | [] => [[c]]
      | l :: ls => (c :: l) :: ls

/-- Strip a literal token from the front; none when it is not a
prefix. -/
def stripTok : Str → Str → Option Str
  | [], s => some s
  | _ :: _, [] => none
  | p :: ps, c :: cs => if c = p then stripTok ps cs else none

/-- strings.HasPrefix. -/
def startsWith (s pre : Str) : Bool := (stripTok pre s).isSome

/-- strings.TrimPrefix: the string unchanged when the prefix is
absent. -/
def goTrimStart (s pre : Str) : Str := (stripTok pre s).getD s

/-- strings.TrimSuffix. -/
def goTrimEnd (s suf : Str) : Str :=
  if suf.isSuffixOf s then s.take (s.length - suf.length) else s

/-- The optional option group `(?:\s*,\s*(.+))?` matched after the
closing quote of a declaration: the capture exists when the first
non-space character is a comma followed by at least one further
character; the capture runs to the end of the line, with leading
spaces consumed greedily by `\s*` — except that when only spaces
follow the comma, backtracking leaves exactly the last space for the
mandatory `(.+)`. -/
def optTail (t : Str) : Option Str :=
  match t.dropWhile isSpaceRe with
  | ',' :: r =>
    let u := r.dropWhile isSpaceRe
    if u.isEmpty then
      match r.reverse with
      | c :: _ => some [c]
      | [] => none
    else some u
  | _ => none

/-- The anchored declaration pattern with an option group,
`^kw\s+"([^"]+)"(?:\s*,\s*(.+))?` (tap, brew, cask, mas): the
keyword, at least one space, a quote, a non-empty run of non-quote
characters, the closing quote, then the optional option capture.
FindStringSubmatch needs only a prefix of the line to match. -/
def matchDecl (kw : Str) (line : Str) : Option (Str × Option Str) :=
  match stripTok kw line with
  | none => none
  | some r1 =>
    if (r1.takeWhile isSpaceRe).isEmpty then none
    else
      match r1.dropWhile isSpaceRe with
      | '"' :: r2 =>
        let name := r2.takeWhile (fun c => !(c = '"'))
        if name.isEmpty then none
        else
          match r2.dropWhile (fun c => !(c = '"')) with
          | '"' :: tail => some (name, optTail tail)
          | _ => none
      | _ => none

/-- The anchored declaration pattern without an option group,
`^kw\s+"([^"]+)"` (vscode, cursor, antigravity, go). -/
def matchSimple (kw : Str) (line : Str) : Option Str :=
  match matchDecl kw line with
  | some (name, _) => some name
  | none => none

/-- One attempt of the option pattern `(\w+):\s*(.+?)(?:,\s*|$)` at
the present position: the greedy `(\w+)` takes the maximal word run,
and since `:` is not a word character the run must be followed
immediately by a colon. -/
def scanOneKey (s : Str) : Option (Str × Str) :=
  let run := s.takeWhile isWordRe
  if run.isEmpty then none
  else
    match s.drop run.length with
    | ':' :: rest => some (run, rest)
    | _ => none

/-- Leftmost match position of the key part: the engine advances one
character at a time. -/
def findKey : Str → Option (Str × Str)
  | [] => none
  | c :: cs =>
    match scanOneKey (c :: cs) with
    | some kv => some kv
    | none => findKey cs

/-- The value part `\s*(.+?)(?:,\s*|$)` after the colon: the greedy
`\s*` eats the spaces, the lazy capture then runs to the first comma
strictly after its first character, or to the end of the string; a
terminating comma and the spaces after it are consumed.  When only
spaces follow the colon, backtracking leaves the final space as the
capture; when nothing follows, the match fails (and, the colon being
the last character, every later starting position fails too). -/
def matchValue (s : Str) : Option (Str × Str) :=
  match s.dropWhile isSpaceRe with
  | [] =>
    match s.reverse with
    | c :: _ => some ([c], [])
    | [] => none
  | c :: cs =>
    let v := c :: cs.takeWhile (fun x => !(x = ','))
    match cs.dropWhile (fun x => !(x = ',')) with
    | ',' :: after => some (v, after.dropWhile isSpaceRe)
    | _ => some (v, [])

/-- FindAllStringSubmatch of the option pattern: repeat the leftmost
match from the end of the previous one.  Matches are non-empty, so
the remainder shrinks by at least two characters per step and a fuel
of one more than the string length always suffices. -/
def findAllOptions : Nat → Str → List (Str × Str)
  | 0, _ => []
  | fuel + 1, s =>
    match findKey s with
    | none => []
    | some (k, afterColon) =>
      match matchValue afterColon with
      | none => []
      | some (v, rest) => (k, v) :: findAllOptions fuel rest

/-- parseOptions from parser.go: run the option pattern over the
option string; each match's value is space-trimmed, stripped of one
trailing comma, unquoted, and stored under its key. -/
def parseOptions (optStr : Str) (pkg : Package) : Package :=
  let ms := findAllOptions (optStr.length + 1) optStr
  let step := fun m (kv : Str × Str) =>
    optInsert m kv.1 (parseValueAsString (goTrimEnd (trimSpace kv.2) [',']))
  { pkg with options := ms.foldl step pkg.options }

/-- The `len(matches) > 2 && matches[2] != ""` guard of parseLine:
options are parsed only when the option capture is present and
non-empty. -/
def applyOpts (pkg : Package) (o : Option Str) : Package :=
  match o with
  | some s => if s.isEmpty then pkg else parseOptions s pkg
  | none => pkg

/-- parseLine from parser.go: try the per-category patterns in
order (tap, brew, cask, mas, vscode, cursor, antigravity, go); the
first match wins, a line matching none is rejected. -/
def parseLine (line : Str) : Option Package :=
  match matchDecl (strOf "tap") line with
  | some (n, o) => some (applyOpts (NewPackage (strOf "tap") n) o)
  | none =>
    match matchDecl (strOf "brew") line with
    | some (n, o) => some (applyOpts (NewPackage (strOf "brew") n) o)
    | none =>
      match matchDecl (strOf "cask") line with
      | some (n, o) => some (applyOpts (NewPackage (strOf "cask") n) o)
      | none =>
        match matchDecl (strOf "mas") line with
        | some (n, o) => some (applyOpts (NewPackage (strOf "mas") n) o)
        | none =>
          match matchSimple (strOf "vscode") line with
          | some n => some (NewPackage (strOf "vscode") n)
          | none =>
            match matchSimple (strOf "cursor") line with
            | some n => some (NewPackage (strOf "cursor") n)
            | none =>
              match matchSimple (strOf "antigravity") line with
              | some n => some (NewPackage (strOf "antigravity") n)
              | none =>
                match matchSimple (strOf "go") line with
                | some n => some (NewPackage (strOf "go") n)
                | none => none

/-- One iteration of the ParseString scan loop.  The state is the
package list accumulated so far together with the pending comment
(`lastComment`; the empty string means none).  A blank line is
skipped, a comment line replaces the pending comment with its
trimmed text, a line that parses is appended — taking the pending
comment as description when one is pending — and clears the pending
comment, and a line that fails to parse clears it too. -/
def parseStep (st : List Package × Str) (rawLine : Str) : List Package × Str :=
  let line := trimSpace (dropCR rawLine)
  if line.isEmpty then st
  else if startsWith line (strOf "#") then
    (st.1, trimSpace (goTrimStart line (strOf "#")))
  else
    match parseLine line with
    | none => (st.1, [])
    | some pkg =>
      if st.2.isEmpty then (st.1 ++ [pkg], [])
      else (st.1 ++ [{ pkg with description := st.2 }], [])

/-- ParseString from parser.go: scan the content line by line with
an initially empty package list and no pending comment. -/
def ParseString (content : Str) : List Package :=
  ((goLines content).foldl parseStep ([], [])).1

/- ---------------------------------------------------------------
   Manifest writer: internal/brewfile (Writer.Format, formatPackage,
   formatOptions; the file also holds Write/Append, which only add
   I/O around Format and are not modelled)
   --------------------------------------------------------------- -/

/-- Lexicographic byte order on strings (sort.Strings; the inputs
here are ASCII so byte order and character order agree). -/
def strLe : Str → Str → Bool
  | [], _ => true
  | _ :: _, [] => false
  | a :: as, b :: bs => if a = b then strLe as bs else decide (a < b)

/-- Insertion step of the sort used for the option parts. -/
def orderedInsert (x : Str) : List Str → List Str
  | [] => [x]
  | y :: ys => if strLe x y then x :: y :: ys else y :: orderedInsert x ys

/-- sort.Strings.  sort.Slice is not stable, but on the distinct
inputs produced by a Go map (and required of well-formed option
sets) the sorted result is unique, so insertion sort models it. -/
def sortStrs (l : List Str) : List Str := l.foldr orderedInsert []

/-- Insertion step of the by-name package sort. -/
def pkgOrderedInsert (x : Package) : List Package → List Package
  | [] => [x]
  | y :: ys => if strLe x.name y.name then x :: y :: ys else y :: pkgOrderedInsert x ys

/-- The writer's per-group `sort.Slice(pkgs, Name <)`; unstable in
Go, unique on the distinct names required of well-formed sets. -/
def sortByName (ps : List Package) : List Package := ps.foldr pkgOrderedInsert []

/-- strings.Join. -/
def joinSep (sep : Str) : List Str → Str
  | [] => []
  | [x] => x
  | x :: y :: rest => x ++ sep ++ joinSep sep (y :: rest)

/-- The numeric test of formatOptions:
`fmt.Sscanf(v, "%d", new(int))` succeeds iff after optional leading
whitespace (the fmt scanner skips the same Unicode space class as
strings.TrimSpace) an optional sign is followed by at least one
digit (trailing input is not consumed and does not fail Sscanf). -/
def goScanfIntOk (v : Str) : Bool :=
  let r := v.dropWhile isSpaceUni
  let r2 := match r with
    | c :: cs => if c = '+' || c = '-' then cs else r
    | [] => []
  match r2 with
  | c :: _ => c.isDigit
  | [] => false

/-- The value formatting of formatOptions: boolean literals, symbol
values (leading colon) and numeric values stay bare, everything else
is double-quoted. -/
def formatOptionValue (v : Str) : Str :=
  if v = strOf "true" || v = strOf "false" then v
  else if startsWith v (strOf ":") then v
  else if goScanfIntOk v then v
  else '"' :: v ++ ['"']

/-- One `k: v` part of formatOptions. -/
def partOf (kv : Str × Str) : Str := kv.1 ++ ':' :: ' ' :: formatOptionValue kv.2

/-- formatOptions from the writer: build the parts, sort them, join
with comma-space.  (The Go map iteration order is irrelevant: the
parts are sorted before joining.) -/
def formatOptions (opts : List (Str × Str)) : Str :=
  joinSep (strOf ", ") (sortStrs (opts.map partOf))

/-- formatPackage from the writer.  tap, vscode, cursor, antigravity
and go drop any options; mas rewrites the name to FullName when one
is set and keeps only the id option; brew and cask serialize their
options. -/
def formatPackage (p : Package) : Str :=
  if p.ptype = strOf "tap" then strOf "tap \"" ++ p.name ++ strOf "\""
  else if p.ptype = strOf "brew" then
    if p.options.isEmpty then strOf "brew \"" ++ p.name ++ strOf "\""
    else strOf "brew \"" ++ p.name ++ strOf "\", " ++ formatOptions p.options
  else if p.ptype = strOf "cask" then
    if p.options.isEmpty then strOf "cask \"" ++ p.name ++ strOf "\""
    else strOf "cask \"" ++ p.name ++ strOf "\", " ++ formatOptions p.options
  else if p.ptype = strOf "mas" then
    match optLookup p.options (strOf "id") with
    | some id =>
      strOf "mas \"" ++ (if p.fullName.isEmpty then p.name else p.fullName) ++ strOf "\", id: " ++ id
    | none => strOf "mas \"" ++ p.name ++ strOf "\""
  else if p.ptype = strOf "vscode" then strOf "vscode \"" ++ p.name ++ strOf "\""
  else if p.ptype = strOf "cursor" then strOf "cursor \"" ++ p.name ++ strOf "\""
  else if p.ptype = strOf "antigravity" then strOf "antigravity \"" ++ p.name ++ strOf "\""
  else if p.ptype = strOf "go" then strOf "go \"" ++ p.name ++ strOf "\""
  else strOf "# unknown type: " ++ p.ptype ++ strOf " \"" ++ p.name ++ strOf "\""

/-- The writer's fixed category order. -/
def typeOrder : List Str :=
  [strOf "tap", strOf "brew", strOf "cask", strOf "mas",
    strOf "vscode", strOf "cursor", strOf "antigravity", strOf "go"]

/-- The categories that receive a section header comment. -/
def isExtensionType (t : Str) : Bool :=
  t = strOf "cursor" || t = strOf "antigravity" || t = strOf "go"

/-- The text of the section header comment line. -/
def hdrLine (t : Str) : Str := strOf "# " ++ t ++ strOf " (brewsync extension)"

/-- The description comment emitted above a record, when any. -/
def descLines (p : Package) : List Str :=
  if p.description.isEmpty then [] else [strOf "# " ++ p.description]

/-- The lines of one record: optional description comment, then the
declaration. -/
def pkgLines (p : Package) : List Str := descLines p ++ [formatPackage p]

/-- The lines of one sorted group. -/
def groupLines (ps : List Package) : List Str := (ps.map pkgLines).flatten

/-- The line stream of Writer.Format.  Every piece the writer emits
is a whole number of newline-terminated lines: the extension header
piece contributes a blank line and the header comment, the group
separator a blank line (only when something was already written,
i.e. the accumulated line list is non-empty — exactly the
`sb.Len() > 0` test). -/
def chunkStep (packages : List Package) (acc : List Str) (t : Str) : List Str :=
  let pkgs := sortByName (packages.filter (fun p => p.ptype == t))
  if pkgs.isEmpty then acc
  else
    acc ++ (if isExtensionType t then [[], hdrLine t]
            else if acc.isEmpty then [] else [[]]) ++ groupLines pkgs

def formatLines (packages : List Package) : List Str :=
  typeOrder.foldl (chunkStep packages) []

/-- Writer.Format: the concatenation of the lines, each terminated
by a newline. -/
def Format (packages : List Package) : Str :=
  ((formatLines packages).map (fun l => l ++ ['\n'])).flatten

/- ---------------------------------------------------------------
   Well-formedness: the fragment of the record space on which the
   writer's output is parseable back (amended round-trip, C1)
   --------------------------------------------------------------- -/

/-- The first character, if any, does not satisfy p. -/
def headNot (p : Char → Bool) (s : Str) : Bool :=
  match s with
  | [] => true
  | c :: _ => !(p c)

/-- The last character, if any, does not satisfy p. -/
def lastNot (p : Char → Bool) (s : Str) : Bool :=
  match s.reverse with
  | [] => true
  | c :: _ => !(p c)

/-- No whitespace at either end (equivalently: stable under
strings.TrimSpace). -/
def edgeNotSpace (s : Str) : Bool := headNot isSpaceUni s && lastNot isSpaceUni s

/-- No quote character at either end (so the unconditional quote
trim of the parser removes nothing, or exactly the writer's added
quotes). -/
def edgeNotQuote (s : Str) : Bool := headNot isQuoteCut s && lastNot isQuoteCut s

/-- Option values that survive format-then-parse: no comma (the
option pattern stops a value at the first comma), no newline, no
whitespace and no quote character at either end. -/
def wfValue (v : Str) : Bool :=
  !(v.contains ',') && !(v.contains '\n') && edgeNotSpace v && edgeNotQuote v

/-- Option keys: non-empty words, as the option pattern requires. -/
def wfKey (k : Str) : Bool := !k.isEmpty && k.all isWordRe

/-- Names: non-empty, no quotes (the name sits between quotes), no
newline. -/
def wfName (n : Str) : Bool :=
  !n.isEmpty && !(n.contains '"') && !(n.contains '\n')

/-- Descriptions: empty, or a single line with no whitespace at
either end (i.e. stable under the trim the parser applies). -/
def wfDesc (d : Str) : Bool := d.isEmpty || (edgeNotSpace d && !(d.contains '\n'))

/-- Pairwise distinct option keys (a Go map guarantees this). -/
def distinctOptKeys : List (Str × Str) → Bool
  | [] => true
  | kv :: rest => !(rest.any (fun kv2 => kv2.1 == kv.1)) && distinctOptKeys rest

def wfOptions (opts : List (Str × Str)) : Bool :=
  opts.all (fun kv => wfKey kv.1 && wfValue kv.2) && distinctOptKeys opts

/-- A record the writer serializes losslessly: the category must be
one of the eight known ones; tap, vscode and the extension
categories must carry no options (the writer drops them); extension
records need a description (else the section header comment is
parsed as their description); mas must not use FullName (the writer
substitutes it for the name) and may carry only its id option. -/
def wfPackage (p : Package) : Bool :=
  wfName p.name && wfDesc p.description &&
  (if p.ptype = strOf "tap" then p.options.isEmpty
   else if p.ptype = strOf "brew" || p.ptype = strOf "cask" then wfOptions p.options
   else if p.ptype = strOf "mas" then
     p.fullName.isEmpty &&
       (p.options.isEmpty ||
         match p.options with
         | [kv] => (kv.1 == strOf "id") && wfValue kv.2 && !kv.2.isEmpty
         | _ => false)
   else if p.ptype = strOf "vscode" then p.options.isEmpty
   else if isExtensionType p.ptype then p.options.isEmpty && !p.description.isEmpty
   else false)

/-- Pairwise distinct identity keys. -/
def distinctPkgKeys : List Package → Bool
  | [] => true
  | p :: rest => !(containsKey rest (packageKey p)) && distinctPkgKeys rest

/-- A package set on which the round trip is proved: well-formed
records with pairwise distinct identity keys. -/
def wfSet (X : List Package) : Bool := X.all wfPackage && distinctPkgKeys X

/-- Correspondence between a reparsed record and the original: same
category, name and description, an empty FullName (the parser never
fills it), and the same option map. -/
def pkgRel (q p : Package) : Prop :=
  q.ptype = p.ptype ∧ q.name = p.name ∧ q.fullName = [] ∧
    q.description = p.description ∧ ∀ k, optLookup q.options k = optLookup p.options k

/-- The key of a well-shaped `k: v` option part (accessor used to
state the round-trip lemmas). -/
def keyOfPart (part : Str) : Str := part.takeWhile isWordRe

/-- The raw value of a well-shaped `k: v` option part. -/
def valOfPart (part : Str) : Str := (part.dropWhile isWordRe).drop 2

/-- The shape of the parts formatOptions emits. -/
def PartShape (part : Str) : Prop :=
  ∃ k vf, part = k ++ ':' :: ' ' :: vf ∧ wfKey k = true ∧ vf ≠ [] ∧
    ¬ ',' ∈ vf ∧ headNot isSpaceRe vf = true

/- ---------------------------------------------------------------
   Key-set lemmas for the diff engine
   --------------------------------------------------------------- -/

theorem containsKey_eq_true_iff (ps : List Package) (k : Str) :
    containsKey ps k = true ↔ k ∈ ps.map packageKey := by
  simp [containsKey, List.any_eq_true, List.mem_map, beq_iff_eq]

theorem mem_keys_filter_contains (A B : List Package) (k : Str) :
    k ∈ (A.filter (fun p => containsKey B (packageKey p))).map packageKey ↔
      k ∈ A.map packageKey ∧ k ∈ B.map packageKey := by
  constructor
  · rintro h
    simp only [List.mem_map] at h
    obtain ⟨p, hp, rfl⟩ := h
    rw [List.mem_filter] at hp
    refine ⟨List.mem_map_of_mem _ hp.1, ?_⟩
    exact (containsKey_eq_true_iff _ _).mp hp.2
  · rintro ⟨hA, hB⟩
    simp only [List.mem_map] at hA
    obtain ⟨p, hp, rfl⟩ := hA
    refine List.mem_map_of_mem _ ?_
    rw [List.mem_filter]
    exact ⟨hp, (containsKey_eq_true_iff _ _).mpr hB⟩

theorem mem_keys_filter_not_contains (A B : List Package) (k : Str) :
    k ∈ (A.filter (fun p => !(containsKey B (packageKey p)))).map packageKey ↔
      k ∈ A.map packageKey ∧ ¬ k ∈ B.map packageKey := by
  constructor
  · rintro h
    simp only [List.mem_map] at h
    obtain ⟨p, hp, rfl⟩ := h
    rw [List.mem_filter] at hp
    refine ⟨List.mem_map_of_mem _ hp.1, ?_⟩
    intro hB
    have := (containsKey_eq_true_iff B (packageKey p)).mpr hB
    simp [this] at hp
  · rintro ⟨hA, hB⟩
    simp only [List.mem_map] at hA
    obtain ⟨p, hp, rfl⟩ := hA
    refine List.mem_map_of_mem _ ?_
    rw [List.mem_filter]
    refine ⟨hp, ?_⟩
    have : ¬ containsKey B (packageKey p) = true := by
      intro hc
      exact hB ((containsKey_eq_true_iff _ _).mp hc)
    simp [this]

/- ---------------------------------------------------------------
   C9: empty category list selects everything
   --------------------------------------------------------------- -/

/-- C9: for every pair of package sets, DiffByType with an empty
category list returns the same DiffResult as the unfiltered Diff: an
empty selection selects every category, not none. -/
theorem C9_diffByType_empty_selects_all (source current : List Package) :
    DiffByType source current [] = Diff source current := rfl

/- ---------------------------------------------------------------
   C4: Diff swap
   --------------------------------------------------------------- -/

/-- C4 counterexample: with A = [brew:git desc "x"] and
B = [brew:git desc "y"], `Diff(B,A).Common` keeps B's copy while
`Diff(A,B).Common` keeps A's copy, so the two Common lists are not
identical (the records differ in description), refuting the claim
that Common is identical. -/
theorem C4_counterexample :
    (Diff [brewGitDescY] [brewGitDescX]).common ≠
      (Diff [brewGitDescX] [brewGitDescY]).common := by decide

/-- C4 (amended): `Diff(B,A).Additions` equals `Diff(A,B).Removals`
exactly and `Diff(B,A).Removals` equals `Diff(A,B).Additions`
exactly; the two Common lists carry the same identity keys, but each
keeps its own source's copy of the records, so they need not be
identical. -/
theorem C4_diff_swap (A B : List Package) (k : Str) :
    (Diff B A).additions = (Diff A B).removals ∧
    (Diff B A).removals = (Diff A B).additions ∧
    (k ∈ (Diff B A).common.map packageKey ↔ k ∈ (Diff A B).common.map packageKey) := by
  refine ⟨rfl, rfl, ?_⟩
  rw [show (Diff B A).common = B.filter (fun p => containsKey A (packageKey p)) from rfl,
    show (Diff A B).common = A.filter (fun p => containsKey B (packageKey p)) from rfl,
    mem_keys_filter_contains, mem_keys_filter_contains]
  exact and_comm

/-- C4 witness: the amended statement applied to concrete sets. -/
theorem C4_diff_swap_witness :
    (Diff [brewGitDescY] [brewGitDescX]).additions =
      (Diff [brewGitDescX] [brewGitDescY]).removals ∧
    (Diff [brewGitDescY] [brewGitDescX]).removals =
      (Diff [brewGitDescX] [brewGitDescY]).additions ∧
    (packageKey brewGit ∈ (Diff [brewGitDescY] [brewGitDescX]).common.map packageKey ↔
      packageKey brewGit ∈ (Diff [brewGitDescX] [brewGitDescY]).common.map packageKey) :=
  C4_diff_swap [brewGitDescY] [brewGitDescX] (packageKey brewGit)

/- ---------------------------------------------------------------
   C5: Diff partitions the keys
   --------------------------------------------------------------- -/

/-- C5: the identity-key sets of Additions and Removals of
`Diff(A,B)` are disjoint, and every identity key occurring in A or B
is a member of exactly one of Additions, Removals, Common. -/
theorem C5_diff_partition (A B : List Package) (k : Str) :
    ¬ (k ∈ (Diff A B).additions.map packageKey ∧
        k ∈ (Diff A B).removals.map packageKey) ∧
    ((k ∈ A.map packageKey ∨ k ∈ B.map packageKey) →
      ((k ∈ (Diff A B).additions.map packageKey ∧
          ¬ k ∈ (Diff A B).removals.map packageKey ∧
          ¬ k ∈ (Diff A B).common.map packageKey) ∨
        (¬ k ∈ (Diff A B).additions.map packageKey ∧
          k ∈ (Diff A B).removals.map packageKey ∧
          ¬ k ∈ (Diff A B).common.map packageKey) ∨
        (¬ k ∈ (Diff A B).additions.map packageKey ∧
          ¬ k ∈ (Diff A B).removals.map packageKey ∧
          k ∈ (Diff A B).common.map packageKey))) := by
  have hadd : k ∈ (Diff A B).additions.map packageKey ↔
      k ∈ A.map packageKey ∧ ¬ k ∈ B.map packageKey :=
    mem_keys_filter_not_contains A B k
  have hrem : k ∈ (Diff A B).removals.map packageKey ↔
      k ∈ B.map packageKey ∧ ¬ k ∈ A.map packageKey :=
    mem_keys_filter_not_contains B A k
  have hcom : k ∈ (Diff A B).common.map packageKey ↔
      k ∈ A.map packageKey ∧ k ∈ B.map packageKey :=
    mem_keys_filter_contains A B k
  constructor
  · rintro ⟨h1, h2⟩
    exact ((hrem.mp h2).2) ((hadd.mp h1).1)
  · intro hk
    by_cases hA : k ∈ A.map packageKey
    · by_cases hB : k ∈ B.map packageKey
      · exact Or.inr (Or.inr ⟨by simp [hadd, hB], by simp [hrem, hA], hcom.mpr ⟨hA, hB⟩⟩)
      · exact Or.inl ⟨hadd.mpr ⟨hA, hB⟩, by simp [hrem, hA], by simp [hcom, hB]⟩
    · have hB : k ∈ B.map packageKey := hk.resolve_left hA
      exact Or.inr (Or.inl ⟨by simp [hadd, hA], hrem.mpr ⟨hB, hA⟩, by simp [hcom, hA]⟩)

/-- C5 witness: the partition property applied to concrete sets with
the hypothesis discharged. -/
theorem C5_diff_partition_witness :
    ¬ (packageKey brewGit ∈ (Diff [brewGit] []).additions.map packageKey ∧
        packageKey brewGit ∈ (Diff [brewGit] []).removals.map packageKey) ∧
    ((packageKey brewGit ∈ (Diff [brewGit] []).additions.map packageKey ∧
        ¬ packageKey brewGit ∈ (Diff [brewGit] []).removals.map packageKey ∧
        ¬ packageKey brewGit ∈ (Diff [brewGit] []).common.map packageKey) ∨
      (¬ packageKey brewGit ∈ (Diff [brewGit] []).additions.map packageKey ∧
        packageKey brewGit ∈ (Diff [brewGit] []).removals.map packageKey ∧
        ¬ packageKey brewGit ∈ (Diff [brewGit] []).common.map packageKey) ∨
      (¬ packageKey brewGit ∈ (Diff [brewGit] []).additions.map packageKey ∧
        ¬ packageKey brewGit ∈ (Diff [brewGit] []).removals.map packageKey ∧
        packageKey brewGit ∈ (Diff [brewGit] []).common.map packageKey)) :=
  ⟨(C5_diff_partition [brewGit] [] (packageKey brewGit)).1,
    (C5_diff_partition [brewGit] [] (packageKey brewGit)).2 (by decide)⟩

/- ---------------------------------------------------------------
   C3: DiffByType is filter-then-diff
   --------------------------------------------------------------- -/

/-- C3 counterexample: with the empty category list, DiffByType does
not restrict its inputs — `Packages.Filter` treats an empty type
list as "select all" — so a brew record appears in Additions even
though its category is not in the (empty) list, and the result is not
the diff of the restricted (empty) inputs. -/
theorem C3_counterexample :
    (DiffByType [brewGit] [] []).additions = [brewGit] ∧
    ¬ brewGit.ptype ∈ ([] : List Str) ∧
    (Diff ([brewGit].filter (fun p => List.contains [] p.ptype))
        ([].filter (fun p => List.contains [] p.ptype))).additions = [] := by
  refine ⟨by decide, by decide, by decide⟩

/-- C3 (amended): for every non-empty list of categories, DiffByType
equals Diff applied to the two inputs restricted to records whose
category is in the list, and no record of another category appears in
Additions, Removals or Common.  (With an empty list the filter
selects every category, see C9.) -/
theorem C3_diffByType_is_filter_then_diff (source current : List Package)
    (ts : List Str) (hts : ts ≠ []) :
    DiffByType source current ts =
      Diff (source.filter (fun p => ts.contains p.ptype))
        (current.filter (fun p => ts.contains p.ptype)) ∧
    (∀ p, (p ∈ (DiffByType source current ts).additions ∨
        p ∈ (DiffByType source current ts).removals ∨
        p ∈ (DiffByType source current ts).common) → p.ptype ∈ ts) := by
  have hF : ∀ ps : List Package,
      Filter ps ts = ps.filter (fun p => ts.contains p.ptype) := by
    intro ps
    simp [Filter, hts]
  have hEq : DiffByType source current ts =
      Diff (source.filter (fun p => ts.contains p.ptype))
        (current.filter (fun p => ts.contains p.ptype)) := by
    rw [DiffByType, hF, hF]
  refine ⟨hEq, ?_⟩
  intro p hp
  rw [hEq] at hp
  have hmem : ∀ ps : List Package,
      p ∈ ps.filter (fun q => ts.contains q.ptype) → p.ptype ∈ ts := by
    intro ps h
    rw [List.mem_filter] at h
    simpa using h.2
  rcases hp with h | h | h
  · exact hmem _ (List.mem_of_mem_filter h)
  · exact hmem _ (List.mem_of_mem_filter h)
  · exact hmem _ (List.mem_of_mem_filter h)

/-- C3 witness: the amended statement applied to concrete inputs. -/
theorem C3_diffByType_witness :
    (DiffByType [brewGit] [] [strOf "brew"] =
      Diff ([brewGit].filter (fun p => List.contains [strOf "brew"] p.ptype))
        ([].filter (fun p => List.contains [strOf "brew"] p.ptype))) ∧
    (∀ p, (p ∈ (DiffByType [brewGit] [] [strOf "brew"]).additions ∨
        p ∈ (DiffByType [brewGit] [] [strOf "brew"]).removals ∨
        p ∈ (DiffByType [brewGit] [] [strOf "brew"]).common) →
      p.ptype ∈ [strOf "brew"]) :=
  C3_diffByType_is_filter_then_diff [brewGit] [] [strOf "brew"] (by decide)

/- ---------------------------------------------------------------
   C6: FilterIgnored
   --------------------------------------------------------------- -/

/-- C6: FilterIgnored removes from Additions and Removals exactly the
records whose identity key is ignored, leaves Common unchanged, never
changes the length of Common, and never increases the length of
Additions. -/
theorem C6_filterIgnored (d : DiffResult) (ignoredKeys : Str → Bool) :
    (∀ p, p ∈ (d.FilterIgnored ignoredKeys).additions ↔
        p ∈ d.additions ∧ ignoredKeys (packageKey p) = false) ∧
    (∀ p, p ∈ (d.FilterIgnored ignoredKeys).removals ↔
        p ∈ d.removals ∧ ignoredKeys (packageKey p) = false) ∧
    (d.FilterIgnored ignoredKeys).common = d.common ∧
    (d.FilterIgnored ignoredKeys).common.length = d.common.length ∧
    (d.FilterIgnored ignoredKeys).additions.length ≤ d.additions.length := by
  refine ⟨?_, ?_, rfl, rfl, ?_⟩
  · intro p
    rw [show (d.FilterIgnored ignoredKeys).additions =
        d.additions.filter (fun p => !(ignoredKeys (packageKey p))) from rfl,
      List.mem_filter]
    simp
  · intro p
    rw [show (d.FilterIgnored ignoredKeys).removals =
        d.removals.filter (fun p => !(ignoredKeys (packageKey p))) from rfl,
      List.mem_filter]
    simp
  · exact List.length_filter_le _ _

/-- C6 witness: FilterIgnored applied to a concrete diff and ignore
set. -/
theorem C6_filterIgnored_witness :
    (∀ p, p ∈ ((Diff [brewGit] []).FilterIgnored
          (fun k => k == packageKey brewGit)).additions ↔
        p ∈ (Diff [brewGit] []).additions ∧
          (fun k => k == packageKey brewGit) (packageKey p) = false) ∧
    (∀ p, p ∈ ((Diff [brewGit] []).FilterIgnored
          (fun k => k == packageKey brewGit)).removals ↔
        p ∈ (Diff [brewGit] []).removals ∧
          (fun k => k == packageKey brewGit) (packageKey p) = false) ∧
    ((Diff [brewGit] []).FilterIgnored
        (fun k => k == packageKey brewGit)).common = (Diff [brewGit] []).common ∧
    ((Diff [brewGit] []).FilterIgnored
        (fun k => k == packageKey brewGit)).common.length =
      (Diff [brewGit] []).common.length ∧
    ((Diff [brewGit] []).FilterIgnored
        (fun k => k == packageKey brewGit)).additions.length ≤
      (Diff [brewGit] []).additions.length :=
  C6_filterIgnored (Diff [brewGit] []) (fun k => k == packageKey brewGit)

/- ---------------------------------------------------------------
   Helper lemmas for the ignore-file claims
   --------------------------------------------------------------- -/

theorem splitAtColon_eq_none_iff (s : Str) : splitAtColon s = none ↔ ¬ ':' ∈ s := by
  induction s with
  | nil => simp [splitAtColon]
  | cons c cs ih =>
    by_cases hc : c = ':'
    · subst hc
      simp [splitAtColon]
    · simp only [splitAtColon, if_neg hc]
      cases h : splitAtColon cs with
      | none =>
        have h1 : ¬ ':' ∈ cs := ih.mp h
        simp only [List.mem_cons, not_or]
        constructor
        · intro _
          exact ⟨fun he => hc he.symm, h1⟩
        · intro _
          trivial
      | some ab =>
        obtain ⟨a, b⟩ := ab
        have hmem : ':' ∈ cs := by
          by_contra hn
          rw [ih.mpr hn] at h
          exact Option.noConfusion h
        constructor
        · intro hcontra
          exact Option.noConfusion hcontra
        · intro hno
          exact absurd (List.mem_cons_of_mem c hmem) hno

theorem splitAtColon_append (ty n : Str) (h : ¬ ':' ∈ ty) :
    splitAtColon (ty ++ ':' :: n) = some (ty, n) := by
  induction ty with
  | nil => simp [splitAtColon]
  | cons c cs ih =>
    have hc : c ≠ ':' := fun he => h (he ▸ List.mem_cons_self c cs)
    have hcs : ¬ ':' ∈ cs := fun hm => h (List.mem_cons_of_mem c hm)
    simp only [List.cons_append, splitAtColon, if_neg hc]
    rw [List.append_eq, ih hcs]

theorem mem_of_splitAtColon_some (s : Str) (a b : Str)
    (h : splitAtColon s = some (a, b)) : ':' ∈ s := by
  by_contra hmem
  rw [(splitAtColon_eq_none_iff s).mpr hmem] at h
  exact Option.noConfusion h

theorem contains_append_self (xs : List Str) (x : Str) :
    contains (xs ++ [x]) x = true := by
  simp [contains, List.any_append]

theorem addString_idem (xs : List Str) (x : Str) :
    addString (addString xs x) x = addString xs x := by
  by_cases h : contains xs x
  · simp [addString, h]
  · simp [addString, h, contains_append_self]

theorem addPackageToList_idem (l : PackageIgnoreList) (ty n : Str) :
    addPackageToList (addPackageToList l ty n) ty n = addPackageToList l ty n := by
  unfold addPackageToList
  split_ifs <;> simp [addString_idem]

theorem alookup_aset (ms : List (Str × IgnoreConfig)) (k : Str) (v : IgnoreConfig) :
    alookup (aset ms k v) k = some v := by
  induction ms with
  | nil => simp [aset, alookup]
  | cons kv rest ih =>
    obtain ⟨k', v'⟩ := kv
    by_cases h : k' = k
    · simp [aset, alookup, h]
    · simp [aset, alookup, h, ih]

theorem aset_aset (ms : List (Str × IgnoreConfig)) (k : Str) (v w : IgnoreConfig) :
    aset (aset ms k v) k w = aset ms k w := by
  induction ms with
  | nil => simp [aset]
  | cons kv rest ih =>
    obtain ⟨k', v'⟩ := kv
    by_cases h : k' = k
    · simp [aset, h]
    · simp [aset, h, ih]

theorem aset_of_alookup (ms : List (Str × IgnoreConfig)) (k : Str) (v : IgnoreConfig)
    (h : alookup ms k = some v) : aset ms k v = ms := by
  induction ms with
  | nil => simp [alookup] at h
  | cons kv rest ih =>
    obtain ⟨k', v'⟩ := kv
    by_cases hk : k' = k
    · simp only [alookup, if_pos hk] at h
      have hv : v' = v := Option.some.inj h
      simp [aset, if_pos hk, ← hk, ← hv]
    · simp only [alookup, if_neg hk] at h
      simp [aset, hk, ih h]

/- ---------------------------------------------------------------
   C2: package-identifier validation
   --------------------------------------------------------------- -/

/-- C2 counterexample: the identifier "a:b:c" has two separators, so
the claim demands a fatal input error, but splitPackageID splits on
the first colon only and AddPackageIgnore succeeds (the unknown
category "a" then falls through the switch, leaving the file
unchanged). -/
theorem C2_counterexample :
    AddPackageIgnore {} [] (strOf "a:b:c") true = Except.ok ({} : IgnoreFile) ∧
    (strOf "a:b:c").count ':' = 2 := by
  refine ⟨by decide, by decide⟩

/-- C2 (amended): AddPackageIgnore and RemovePackageIgnore return the
descriptive error `invalid package ID format: <id> (expected
type:name)` if and only if the identifier contains NO separator at
all; an identifier with extra separators is accepted, the split
happening at the first colon (the remainder becomes part of the
name). -/
theorem C2_packageID_error_iff (f : IgnoreFile) (machine pkgID : Str) (global : Bool) :
    (AddPackageIgnore f machine pkgID global = Except.error (errMsg pkgID) ↔ ¬ ':' ∈ pkgID) ∧
    (RemovePackageIgnore f machine pkgID global = Except.error (errMsg pkgID) ↔ ¬ ':' ∈ pkgID) ∧
    (∀ e, AddPackageIgnore f machine pkgID global = Except.error e → e = errMsg pkgID) ∧
    (∀ e, RemovePackageIgnore f machine pkgID global = Except.error e → e = errMsg pkgID) := by
  cases h : splitAtColon pkgID with
  | none =>
    have hmem : ¬ ':' ∈ pkgID := (splitAtColon_eq_none_iff pkgID).mp h
    have hp : parsePackageID pkgID = Except.error (errMsg pkgID) := by
      simp [parsePackageID, splitPackageID, h]
    refine ⟨?_, ?_, ?_, ?_⟩
    · simp [AddPackageIgnore, hp, hmem]
    · simp [RemovePackageIgnore, hp, hmem]
    · intro e he
      simp only [AddPackageIgnore, hp] at he
      exact (Except.error.inj he).symm
    · intro e he
      simp only [RemovePackageIgnore, hp] at he
      exact (Except.error.inj he).symm
  | some ab =>
    obtain ⟨a, b⟩ := ab
    have hmem : ':' ∈ pkgID := mem_of_splitAtColon_some pkgID a b h
    have hp : parsePackageID pkgID = Except.ok (a, b) := by
      simp [parsePackageID, splitPackageID, h]
    have hAdd : ∃ f', AddPackageIgnore f machine pkgID global = Except.ok f' := by
      simp only [AddPackageIgnore, hp]
      split
      · exact ⟨_, rfl⟩
      · exact ⟨_, rfl⟩
    have hRem : ∃ f', RemovePackageIgnore f machine pkgID global = Except.ok f' := by
      simp only [RemovePackageIgnore, hp]
      split
      · exact ⟨_, rfl⟩
      · split
        · exact ⟨_, rfl⟩
        · exact ⟨_, rfl⟩
    obtain ⟨fa, ha⟩ := hAdd
    obtain ⟨fr, hr⟩ := hRem
    refine ⟨?_, ?_, ?_, ?_⟩
    · rw [ha]
      simp [hmem]
    · rw [hr]
      simp [hmem]
    · intro e he
      rw [ha] at he
      exact absurd he (by simp)
    · intro e he
      rw [hr] at he
      exact absurd he (by simp)

/-- C2 witness: the amended statement at a concrete identifier. -/
theorem C2_packageID_error_iff_witness :
    (AddPackageIgnore {} [] (strOf "caskapp") true =
        Except.error (errMsg (strOf "caskapp")) ↔ ¬ ':' ∈ strOf "caskapp") ∧
    (RemovePackageIgnore {} [] (strOf "caskapp") true =
        Except.error (errMsg (strOf "caskapp")) ↔ ¬ ':' ∈ strOf "caskapp") ∧
    (∀ e, AddPackageIgnore {} [] (strOf "caskapp") true = Except.error e →
      e = errMsg (strOf "caskapp")) ∧
    (∀ e, RemovePackageIgnore {} [] (strOf "caskapp") true = Except.error e →
      e = errMsg (strOf "caskapp")) :=
  C2_packageID_error_iff {} [] (strOf "caskapp") true

/- ---------------------------------------------------------------
   C8: idempotence of the add operations
   --------------------------------------------------------------- -/

/-- C8: AddPackageIgnore and AddCategoryIgnore are idempotent:
re-adding an entry that the first call produced leaves the state
unchanged; in particular adding "cask:app" globally twice yields
exactly one "app" entry under the global cask list. -/
theorem C8_add_idempotent (f : IgnoreFile) (machine pkgID category : Str) (global : Bool)
    (f' : IgnoreFile) (h : AddPackageIgnore f machine pkgID global = Except.ok f') :
    AddPackageIgnore f' machine pkgID global = Except.ok f' ∧
    AddCategoryIgnore (AddCategoryIgnore f machine category global) machine category global =
      AddCategoryIgnore f machine category global ∧
    AddPackageIgnore {} [] (strOf "cask:app") true = Except.ok caskAppFile ∧
    AddPackageIgnore caskAppFile [] (strOf "cask:app") true = Except.ok caskAppFile ∧
    caskAppFile.global.packages.cask = [strOf "app"] := by
  refine ⟨?_, ?_, by decide, by decide, by decide⟩
  · cases hp : parsePackageID pkgID with
    | error e => simp [AddPackageIgnore, hp] at h
    | ok ab =>
      obtain ⟨ty, n⟩ := ab
      by_cases hg : (global || machine.isEmpty) = true
      · simp only [AddPackageIgnore, hp, if_pos hg] at h ⊢
        injection h with h
        subst h
        simp [addPackageToList_idem]
      · simp only [AddPackageIgnore, hp, if_neg hg] at h ⊢
        injection h with h
        subst h
        simp [alookup_aset, aset_aset, addPackageToList_idem]
  · by_cases hg : (global || machine.isEmpty) = true
    · simp [AddCategoryIgnore, hg, addString_idem]
    · simp [AddCategoryIgnore, hg, alookup_aset, aset_aset, addString_idem]

/-- C8 witness: the idempotence statement at the concrete example of
the claim, with the hypothesis discharged by evaluation. -/
theorem C8_add_idempotent_witness :
    AddPackageIgnore caskAppFile [] (strOf "cask:app") true = Except.ok caskAppFile ∧
    AddCategoryIgnore (AddCategoryIgnore {} [] (strOf "mas") true) [] (strOf "mas") true =
      AddCategoryIgnore {} [] (strOf "mas") true ∧
    AddPackageIgnore {} [] (strOf "cask:app") true = Except.ok caskAppFile ∧
    AddPackageIgnore caskAppFile [] (strOf "cask:app") true = Except.ok caskAppFile ∧
    caskAppFile.global.packages.cask = [strOf "app"] :=
  C8_add_idempotent {} [] (strOf "cask:app") (strOf "mas") true caskAppFile (by decide)

/- ---------------------------------------------------------------
   C10: unknown category tokens
   --------------------------------------------------------------- -/

theorem addPackageToList_unknown (l : PackageIgnoreList) (ty n : Str)
    (h : ¬ ty ∈ knownPackageCategories) : addPackageToList l ty n = l := by
  simp only [knownPackageCategories, List.mem_cons, List.not_mem_nil, or_false, not_or] at h
  obtain ⟨h1, h2, h3, h4, h5, h6, h7, h8⟩ := h
  simp [addPackageToList, h1, h2, h3, h4, h5, h6, h7, h8]

theorem removePackageFromList_unknown (l : PackageIgnoreList) (ty n : Str)
    (h : ¬ ty ∈ knownPackageCategories) : removePackageFromList l ty n = l := by
  simp only [knownPackageCategories, List.mem_cons, List.not_mem_nil, or_false, not_or] at h
  obtain ⟨h1, h2, h3, h4, h5, h6, h7, h8⟩ := h
  simp [removePackageFromList, h1, h2, h3, h4, h5, h6, h7, h8]

/-- C10 counterexample: a machine-scoped add of a well-formed
identifier with the unknown category "npm" returns success but does
NOT leave the IgnoreFile unchanged: an empty scope entry for the
previously unseen machine id is created. -/
theorem C10_counterexample :
    AddPackageIgnore {} (strOf "m1") (strOf "npm:x") false =
      Except.ok { machines := [(strOf "m1", {})] } ∧
    ({ machines := [(strOf "m1", {})] } : IgnoreFile) ≠ {} := by
  refine ⟨by decide, by decide⟩

/-- C10 (amended): for a well-formed identifier whose category token
is not one of the eight known categories, AddPackageIgnore and
RemovePackageIgnore return success and never store the entry:
RemovePackageIgnore leaves the state exactly unchanged, as does a
global-scoped add; a machine-scoped add leaves every ignore list
unchanged but inserts an (empty) scope entry for the named machine if
one did not exist. -/
theorem C10_unknown_category (f : IgnoreFile) (machine ty n : Str) (global : Bool)
    (hcolon : ¬ ':' ∈ ty) (hunknown : ¬ ty ∈ knownPackageCategories) :
    RemovePackageIgnore f machine (ty ++ ':' :: n) global = Except.ok f ∧
    ((global = true ∨ machine = []) →
      AddPackageIgnore f machine (ty ++ ':' :: n) global = Except.ok f) ∧
    (global = false → machine ≠ [] →
      AddPackageIgnore f machine (ty ++ ':' :: n) global =
        Except.ok { f with machines := aset f.machines machine ((alookup f.machines machine).getD {}) }) := by
  have hp : parsePackageID (ty ++ ':' :: n) = Except.ok (ty, n) := by
    simp [parsePackageID, splitPackageID, splitAtColon_append ty n hcolon]
  refine ⟨?_, ?_, ?_⟩
  · by_cases hg : (global || machine.isEmpty) = true
    · simp [RemovePackageIgnore, hp, hg, removePackageFromList_unknown _ _ _ hunknown]
    · simp only [RemovePackageIgnore, hp, if_neg hg]
      cases halk : alookup f.machines machine with
      | none => rfl
      | some mi =>
        simp [removePackageFromList_unknown _ _ _ hunknown, aset_of_alookup _ _ _ halk]
  · intro hgm
    have hg : (global || machine.isEmpty) = true := by
      rcases hgm with hh | hh
      · simp [hh]
      · simp [hh]
    simp [AddPackageIgnore, hp, hg, addPackageToList_unknown _ _ _ hunknown]
  · intro hg1 hg2
    have hme : machine.isEmpty = false := by
      cases hme2 : machine.isEmpty
      · rfl
      · exact absurd (by simpa [List.isEmpty_iff] using hme2) hg2
    have hg : (global || machine.isEmpty) = false := by simp [hg1, hme]
    simp [AddPackageIgnore, hp, hg, addPackageToList_unknown _ _ _ hunknown]

/-- C10 witness: the amended statement at the counterexample's
concrete input, hypotheses discharged by evaluation. -/
theorem C10_unknown_category_witness :
    RemovePackageIgnore {} (strOf "m1") (strOf "npm" ++ ':' :: strOf "x") false = Except.ok {} ∧
    ((false = true ∨ strOf "m1" = []) →
      AddPackageIgnore {} (strOf "m1") (strOf "npm" ++ ':' :: strOf "x") false = Except.ok {}) ∧
    (false = false → strOf "m1" ≠ [] →
      AddPackageIgnore {} (strOf "m1") (strOf "npm" ++ ':' :: strOf "x") false =
        Except.ok { ({} : IgnoreFile) with machines := aset ({} : IgnoreFile).machines (strOf "m1") ((alookup ({} : IgnoreFile).machines (strOf "m1")).getD {}) }) :=
  C10_unknown_category {} (strOf "m1") (strOf "npm") (strOf "x") false (by decide) (by decide)

/- ---------------------------------------------------------------
   C7: the pending-description discipline of the parser
   --------------------------------------------------------------- -/

theorem parseLine_nil : parseLine [] = none := rfl

theorem parseLine_hash (t : Str) : parseLine ('#' :: t) = none := rfl

theorem startsWith_cons_hash (t : Str) : startsWith ('#' :: t) (strOf "#") = true := rfl

theorem startsWith_hash_iff (l : Str) :
    startsWith l (strOf "#") = true ↔ ∃ t, l = '#' :: t := by
  cases l with
  | nil =>
    constructor
    · intro h
      exact absurd h (by decide)
    · rintro ⟨t, ht⟩
      exact List.noConfusion ht
  | cons c cs =>
    constructor
    · intro h
      by_cases hc : c = '#'
      · exact ⟨cs, by rw [hc]⟩
      · have hf : startsWith (c :: cs) (strOf "#") = false := by
          show (stripTok ('#' :: []) (c :: cs)).isSome = false
          simp [stripTok, hc]
        rw [hf] at h
        exact Bool.noConfusion h
    · rintro ⟨t, ht⟩
      rw [ht]
      exact startsWith_cons_hash t

/-- C7: the parser's comment discipline. A blank line leaves the
accumulated packages and the pending description unchanged; a
comment line replaces the pending description with the comment text;
a non-blank line that fails to parse discards the pending
description; a line that parses successfully appends its record —
with the pending description attached exactly when one is pending —
and clears the pending state.  Finally, the example: the text
`# Fast file search\nbrew "fd"\nbrew "rg"` parses to exactly two
records, fd carrying the description and rg none. -/
theorem C7_pending_description (acc : List Package) (pend rawLine : Str) (pkg : Package) :
    (trimSpace (dropCR rawLine) = [] → parseStep (acc, pend) rawLine = (acc, pend)) ∧
    (startsWith (trimSpace (dropCR rawLine)) (strOf "#") = true →
      parseStep (acc, pend) rawLine =
        (acc, trimSpace (goTrimStart (trimSpace (dropCR rawLine)) (strOf "#")))) ∧
    (trimSpace (dropCR rawLine) ≠ [] →
      startsWith (trimSpace (dropCR rawLine)) (strOf "#") = false →
      parseLine (trimSpace (dropCR rawLine)) = none →
      parseStep (acc, pend) rawLine = (acc, [])) ∧
    (parseLine (trimSpace (dropCR rawLine)) = some pkg →
      parseStep (acc, pend) rawLine =
        (acc ++ [if pend.isEmpty then pkg else { pkg with description := pend }], [])) ∧
    ParseString (strOf "# Fast file search\nbrew \"fd\"\nbrew \"rg\"") =
      [{ ptype := strOf "brew", name := strOf "fd", description := strOf "Fast file search" },
        { ptype := strOf "brew", name := strOf "rg" }] := by
  refine ⟨?_, ?_, ?_, ?_, by decide⟩
  · intro h
    simp [parseStep, h]
  · intro h
    obtain ⟨t, ht⟩ := (startsWith_hash_iff _).mp h
    rw [parseStep, ht]
    simp [startsWith_cons_hash]
  · intro h1 h2 h3
    cases hL : trimSpace (dropCR rawLine) with
    | nil => exact absurd hL h1
    | cons c cs =>
      rw [hL] at h2 h3
      simp [parseStep, hL, h2, h3]
  · intro h
    have hnil : trimSpace (dropCR rawLine) ≠ [] := by
      intro he
      rw [he, parseLine_nil] at h
      exact Option.noConfusion h
    have hhash : startsWith (trimSpace (dropCR rawLine)) (strOf "#") = false := by
      cases hsw : startsWith (trimSpace (dropCR rawLine)) (strOf "#") with
      | false => rfl
      | true =>
        obtain ⟨t, ht⟩ := (startsWith_hash_iff _).mp hsw
        rw [ht, parseLine_hash] at h
        exact Option.noConfusion h
    cases hL : trimSpace (dropCR rawLine) with
    | nil => exact absurd hL hnil
    | cons c cs =>
      rw [hL] at h hhash
      by_cases hp : pend.isEmpty = true
      · simp [parseStep, hL, hhash, h, hp]
      · simp only [Bool.not_eq_true] at hp
        simp [parseStep, hL, hhash, h, hp]

/-- C7 witness: the transition facts applied to a concrete line with
a pending description. -/
theorem C7_pending_description_witness :
    (trimSpace (dropCR (strOf "brew \"fd\"")) = [] →
      parseStep ([], strOf "note") (strOf "brew \"fd\"") = ([], strOf "note")) ∧
    (startsWith (trimSpace (dropCR (strOf "brew \"fd\""))) (strOf "#") = true →
      parseStep ([], strOf "note") (strOf "brew \"fd\"") =
        ([], trimSpace (goTrimStart (trimSpace (dropCR (strOf "brew \"fd\""))) (strOf "#")))) ∧
    (trimSpace (dropCR (strOf "brew \"fd\"")) ≠ [] →
      startsWith (trimSpace (dropCR (strOf "brew \"fd\""))) (strOf "#") = false →
      parseLine (trimSpace (dropCR (strOf "brew \"fd\""))) = none →
      parseStep ([], strOf "note") (strOf "brew \"fd\"") = ([], [])) ∧
    (parseLine (trimSpace (dropCR (strOf "brew \"fd\""))) =
        some (NewPackage (strOf "brew") (strOf "fd")) →
      parseStep ([], strOf "note") (strOf "brew \"fd\"") =
        ([] ++ [if (strOf "note").isEmpty then NewPackage (strOf "brew") (strOf "fd")
          else { NewPackage (strOf "brew") (strOf "fd") with description := strOf "note" }], [])) ∧
    ParseString (strOf "# Fast file search\nbrew \"fd\"\nbrew \"rg\"") =
      [{ ptype := strOf "brew", name := strOf "fd", description := strOf "Fast file search" },
        { ptype := strOf "brew", name := strOf "rg" }] :=
  C7_pending_description [] (strOf "note") (strOf "brew \"fd\"")
    (NewPackage (strOf "brew") (strOf "fd"))

/- ---------------------------------------------------------------
   String lemmas for the round trip
   --------------------------------------------------------------- -/

theorem takeWhile_append_cons (p : Char → Bool) (xs : Str) (y : Char) (ys : Str)
    (hxs : ∀ x ∈ xs, p x = true) (hy : p y = false) :
    (xs ++ y :: ys).takeWhile p = xs := by
  induction xs with
  | nil => simp [List.takeWhile_cons, hy]
  | cons a as ih =>
    have ha : p a = true := hxs a (by simp)
    simp only [List.cons_append, List.takeWhile_cons, ha, if_pos]
    rw [ih (fun x hx => hxs x (by simp [hx]))]

theorem dropWhile_append_cons (p : Char → Bool) (xs : Str) (y : Char) (ys : Str)
    (hxs : ∀ x ∈ xs, p x = true) (hy : p y = false) :
    (xs ++ y :: ys).dropWhile p = y :: ys := by
  induction xs with
  | nil => simp [List.dropWhile_cons, hy]
  | cons a as ih =>
    have ha : p a = true := hxs a (by simp)
    simp only [List.cons_append, List.dropWhile_cons, ha, if_pos]
    exact ih (fun x hx => hxs x (by simp [hx]))

theorem dropWhile_cons_of_neg (p : Char → Bool) (x : Char) (xs : Str) (h : p x = false) :
    (x :: xs).dropWhile p = x :: xs := by
  simp [List.dropWhile_cons, h]

theorem takeWhile_all (p : Char → Bool) (xs : Str) (hxs : ∀ x ∈ xs, p x = true) :
    xs.takeWhile p = xs := by
  induction xs with
  | nil => rfl
  | cons a as ih =>
    simp only [List.takeWhile_cons, hxs a (by simp), if_pos]
    rw [ih (fun x hx => hxs x (by simp [hx]))]

theorem stripTok_self_append (kw r : Str) : stripTok kw (kw ++ r) = some r := by
  induction kw with
  | nil => rfl
  | cons c cs ih => simp [stripTok, ih]

theorem trimLeftBy_eq_self (p : Char → Bool) (s : Str)
    (h : headNot p s = true) : trimLeftBy p s = s := by
  cases s with
  | nil => rfl
  | cons c cs =>
    have hc : p c = false := by simpa [headNot] using h
    exact dropWhile_cons_of_neg p c cs hc

theorem trimRightBy_eq_self (p : Char → Bool) (s : Str)
    (h : lastNot p s = true) : trimRightBy p s = s := by
  unfold trimRightBy
  cases hs : s.reverse with
  | nil =>
    have : s = [] := by
      have := congrArg List.reverse hs
      simpa using this
    simp [this]
  | cons c cs =>
    have hc : p c = false := by
      unfold lastNot at h
      rw [hs] at h
      simpa using h
    rw [dropWhile_cons_of_neg p c cs hc, ← hs, List.reverse_reverse]

theorem trimBy_eq_self (p : Char → Bool) (s : Str)
    (h1 : headNot p s = true) (h2 : lastNot p s = true) : trimBy p s = s := by
  unfold trimBy
  rw [trimLeftBy_eq_self p s h1, trimRightBy_eq_self p s h2]

theorem isSpaceRe_le_isSpaceUni (c : Char) (h : isSpaceUni c = false) : isSpaceRe c = false := by
  cases hr : isSpaceRe c with
  | false => rfl
  | true =>
    exfalso
    simp only [isSpaceRe, Bool.or_eq_true, decide_eq_true_eq] at hr
    rcases hr with ((((h1 | h1) | h1) | h1) | h1) <;> subst h1 <;> exact absurd h (by decide)

/-- dropCR leaves a string whose last character is not a carriage
return unchanged. -/
theorem dropCR_eq_self (s : Str) (h : lastNot isSpaceUni s = true) : dropCR s = s := by
  unfold dropCR
  cases hs : s.reverse with
  | nil => rfl
  | cons c cs =>
    have hc : isSpaceUni c = false := by
      unfold lastNot at h
      rw [hs] at h
      simpa using h
    have : ¬ c = '\r' := by
      intro he
      rw [he] at hc
      exact absurd hc (by decide)
    simp [this]

/-- A line with non-space characters at both ends passes the
parser's per-line normalisation unchanged. -/
theorem lineNorm_eq_self (s : Str) (h1 : headNot isSpaceUni s = true)
    (h2 : lastNot isSpaceUni s = true) : trimSpace (dropCR s) = s := by
  rw [dropCR_eq_self s h2]
  exact trimBy_eq_self isSpaceUni s h1 h2

theorem headNot_append_left (p : Char → Bool) (xs ys : Str) (hx : xs ≠ [])
    (h : headNot p xs = true) : headNot p (xs ++ ys) = true := by
  cases xs with
  | nil => exact absurd rfl hx
  | cons c cs => simpa [headNot] using h

theorem lastNot_append_right (p : Char → Bool) (xs ys : Str) (hy : ys ≠ [])
    (h : lastNot p ys = true) : lastNot p (xs ++ ys) = true := by
  unfold lastNot at h ⊢
  rw [List.reverse_append]
  cases hys : ys.reverse with
  | nil =>
    have : ys = [] := by
      have := congrArg List.reverse hys
      simpa using this
    exact absurd this hy
  | cons c cs =>
    rw [hys] at h
    simpa using h

/- ---------------------------------------------------------------
   Recovering the options from their formatted form
   --------------------------------------------------------------- -/

theorem isWordRe_not_space (c : Char) (h : isWordRe c = true) : isSpaceRe c = false := by
  cases hsp : isSpaceRe c
  · rfl
  · exfalso
    unfold isSpaceRe at hsp
    simp only [Bool.or_eq_true, decide_eq_true_eq] at hsp
    rcases hsp with ((((he | he) | he) | he) | he) <;>
      (subst he; exact absurd h (by decide))

theorem wfKey_all_word (k : Str) (hk : wfKey k = true) : ∀ x ∈ k, isWordRe x = true := by
  have h := hk
  simp only [wfKey, Bool.and_eq_true, List.all_eq_true] at h
  exact fun x hx => h.2 x hx

theorem keyOfPart_eq (k vf : Str) (hk : wfKey k = true) :
    keyOfPart (k ++ ':' :: ' ' :: vf) = k :=
  takeWhile_append_cons isWordRe k ':' (' ' :: vf) (wfKey_all_word k hk) (by decide)

theorem valOfPart_eq (k vf : Str) (hk : wfKey k = true) :
    valOfPart (k ++ ':' :: ' ' :: vf) = vf := by
  unfold valOfPart
  rw [dropWhile_append_cons isWordRe k ':' (' ' :: vf) (wfKey_all_word k hk) (by decide)]
  rfl

theorem wfKey_ne_nil (k : Str) (hk : wfKey k = true) : k ≠ [] := by
  intro he
  rw [he] at hk
  exact absurd hk (by decide)

/-- joinSep writes its first element first. -/
theorem joinSep_cons_decomp (sep : Str) (r : Str) (rs : List Str) :
    ∃ X, joinSep sep (r :: rs) = r ++ X := by
  cases rs with
  | nil => exact ⟨[], by simp [joinSep]⟩
  | cons y ys => exact ⟨sep ++ joinSep sep (y :: ys), by simp [joinSep]⟩

/-- The head of a joinSep of well-shaped parts is a word character,
which is never a space. -/
theorem headNot_isSpaceRe_joinSep (r : Str) (rs : List Str) (hsh : PartShape r) :
    headNot isSpaceRe (joinSep (strOf ", ") (r :: rs)) = true := by
  obtain ⟨k, vf, rfl, hk, _, _, _⟩ := hsh
  obtain ⟨X, hX⟩ := joinSep_cons_decomp (strOf ", ") (k ++ ':' :: ' ' :: vf) rs
  rw [hX]
  obtain ⟨kc, k', rfl⟩ : ∃ kc k', k = kc :: k' := by
    cases k with
    | nil => exact absurd rfl (wfKey_ne_nil [] hk)
    | cons kc k' => exact ⟨kc, k', rfl⟩
  have hkc : isWordRe kc = true := wfKey_all_word _ hk kc (by simp)
  simp [headNot, isWordRe_not_space kc hkc]

theorem findKey_at_head (k t : Str) (hk : wfKey k = true) :
    findKey (k ++ ':' :: t) = some (k, t) := by
  obtain ⟨kc, k', rfl⟩ : ∃ kc k', k = kc :: k' := by
    cases k with
    | nil => exact absurd rfl (wfKey_ne_nil [] hk)
    | cons kc k' => exact ⟨kc, k', rfl⟩
  have hscan : scanOneKey ((kc :: k') ++ ':' :: t) = some (kc :: k', t) := by
    unfold scanOneKey
    rw [takeWhile_append_cons isWordRe (kc :: k') ':' t (wfKey_all_word _ hk) (by decide)]
    simp only [List.isEmpty_cons, Bool.false_eq_true, if_false]
    rw [List.drop_left]
    rfl
  rw [List.cons_append, findKey]
  rw [← List.cons_append, hscan]

theorem matchValue_space_vf (vf sepRest : Str) (hvf : vf ≠ [])
    (hcomma : ¬ ',' ∈ vf) (hhead : headNot isSpaceRe vf = true) :
    (sepRest = [] → matchValue (' ' :: (vf ++ sepRest)) = some (vf, [])) ∧
    (∀ rest', sepRest = ',' :: ' ' :: rest' → headNot isSpaceRe rest' = true →
      matchValue (' ' :: (vf ++ sepRest)) = some (vf, rest')) := by
  obtain ⟨vc, vf', rfl⟩ : ∃ vc vf', vf = vc :: vf' := by
    cases vf with
    | nil => exact absurd rfl hvf
    | cons vc vf' => exact ⟨vc, vf', rfl⟩
  have hvc : isSpaceRe vc = false := by simpa [headNot] using hhead
  have hvf'comma : ∀ x ∈ vf', (!(x = ',')) = true := by
    intro x hx
    have hne : ¬ x = ',' := fun he => hcomma (List.mem_cons_of_mem vc (he ▸ hx))
    simp [hne]
  constructor
  · intro hs
    subst hs
    have hdrop2 : (' ' :: ((vc :: vf') ++ [])).dropWhile isSpaceRe = vc :: vf' := by
      rw [List.append_nil, List.dropWhile_cons]
      simp only [show isSpaceRe ' ' = true from rfl, if_pos]
      exact dropWhile_cons_of_neg _ _ _ hvc
    have htw : vf'.takeWhile (fun x => !(x = ',')) = vf' := takeWhile_all _ vf' hvf'comma
    have hdw : vf'.dropWhile (fun x => !(x = ',')) = [] := by
      rw [List.dropWhile_eq_nil_iff]
      intro x hx
      simpa using hvf'comma x hx
    simp only [matchValue, hdrop2, htw, hdw]
  · intro rest' hs hrest
    subst hs
    have hdrop2 : (' ' :: ((vc :: vf') ++ ',' :: ' ' :: rest')).dropWhile isSpaceRe =
        vc :: (vf' ++ ',' :: ' ' :: rest') := by
      rw [List.dropWhile_cons]
      simp only [show isSpaceRe ' ' = true from rfl, if_pos]
      rw [List.cons_append, dropWhile_cons_of_neg _ _ _ hvc]
    have htw : (vf' ++ ',' :: ' ' :: rest').takeWhile (fun x => !(x = ',')) = vf' :=
      takeWhile_append_cons _ vf' ',' (' ' :: rest') hvf'comma (by decide)
    have hdw : (vf' ++ ',' :: ' ' :: rest').dropWhile (fun x => !(x = ',')) =
        ',' :: ' ' :: rest' :=
      dropWhile_append_cons _ vf' ',' (' ' :: rest') hvf'comma (by decide)
    have hrest2 : (' ' :: rest').dropWhile isSpaceRe = rest' := by
      rw [List.dropWhile_cons]
      simp only [show isSpaceRe ' ' = true from rfl, if_pos]
      cases rest' with
      | nil => rfl
      | cons c cs =>
        have hc : isSpaceRe c = false := by simpa [headNot] using hrest
        exact dropWhile_cons_of_neg _ _ _ hc
    simp only [matchValue, hdrop2, htw, hdw, hrest2]

theorem findAllOptions_nil (fuel : Nat) : findAllOptions fuel [] = [] := by
  cases fuel with
  | zero => rfl
  | succ f => simp [findAllOptions, findKey]

/-- FindAll over a comma-space join of well-shaped parts returns
exactly the key/value split of each part, in order. -/
theorem findAllOptions_joinSep (parts : List Str) (fuel : Nat)
    (hfuel : parts.length ≤ fuel) (hsh : ∀ part ∈ parts, PartShape part) :
    findAllOptions fuel (joinSep (strOf ", ") parts) =
      parts.map (fun part => (keyOfPart part, valOfPart part)) := by
  induction parts generalizing fuel with
  | nil =>
    cases fuel with
    | zero => rfl
    | succ f => simp [joinSep, findAllOptions, findKey]
  | cons part rest ih =>
    cases fuel with
    | zero => exact absurd hfuel (by simp)
    | succ f =>
      obtain ⟨k, vf, hpart, hk, hvf, hcomma, hhead⟩ := hsh part (by simp)
      cases rest with
      | nil =>
        have hjoin : joinSep (strOf ", ") [part] = k ++ ':' :: (' ' :: (vf ++ [])) := by
          rw [show joinSep (strOf ", ") [part] = part from rfl, hpart, List.append_nil]
        have hmv := (matchValue_space_vf vf [] hvf hcomma hhead).1 rfl
        simp only [hjoin, findAllOptions, findKey_at_head k (' ' :: (vf ++ [])) hk, hmv]
        rw [findAllOptions_nil]
        subst hpart
        simp [keyOfPart_eq k vf hk, valOfPart_eq k vf hk]
      | cons r rs =>
        have hsep : strOf ", " = ',' :: ' ' :: [] := rfl
        have hjoin : joinSep (strOf ", ") (part :: r :: rs) =
            k ++ ':' :: (' ' :: (vf ++ (',' :: ' ' :: joinSep (strOf ", ") (r :: rs)))) := by
          rw [show joinSep (strOf ", ") (part :: r :: rs) =
            part ++ strOf ", " ++ joinSep (strOf ", ") (r :: rs) from rfl, hpart, hsep]
          simp [List.append_assoc]
        have hrest : headNot isSpaceRe (joinSep (strOf ", ") (r :: rs)) = true :=
          headNot_isSpaceRe_joinSep r rs (hsh r (by simp))
        have hmv := (matchValue_space_vf vf (',' :: ' ' :: joinSep (strOf ", ") (r :: rs))
          hvf hcomma hhead).2 (joinSep (strOf ", ") (r :: rs)) rfl hrest
        simp only [hjoin, findAllOptions, findKey_at_head k _ hk, hmv]
        rw [ih f (by simpa using Nat.le_of_succ_le_succ hfuel)
          (fun q hq => hsh q (by simp [hq]))]
        subst hpart
        simp [keyOfPart_eq k vf hk, valOfPart_eq k vf hk]

/- ---------------------------------------------------------------
   Value recovery: trimming a formatted value returns the original
   --------------------------------------------------------------- -/

theorem suffix_singleton_mem (c : Char) (s : Str) (h : [c].isSuffixOf s = true) : c ∈ s := by
  rw [List.isSuffixOf_iff_suffix] at h
  obtain ⟨t, rfl⟩ := h
  simp

theorem goTrimEnd_comma_of_not_mem (s : Str) (h : ¬ ',' ∈ s) : goTrimEnd s [','] = s := by
  unfold goTrimEnd
  cases hs : [','].isSuffixOf s with
  | false => rfl
  | true => exact absurd (suffix_singleton_mem ',' s hs) h

theorem headNot_mono (p q : Char → Bool) (s : Str)
    (hpq : ∀ c, q c = false → p c = false) (h : headNot q s = true) :
    headNot p s = true := by
  cases s with
  | nil => rfl
  | cons c cs =>
    have : q c = false := by simpa [headNot] using h
    simp [headNot, hpq c this]

theorem lastNot_ne (p : Char → Bool) (s : Str) (c : Char) (h : lastNot p s = true)
    (hc : p c = true) : s.reverse.head? ≠ some c := by
  intro he
  unfold lastNot at h
  cases hs : s.reverse with
  | nil => rw [hs] at he; exact Option.noConfusion he
  | cons d ds =>
    rw [hs] at he h
    have : d = c := by simpa using he
    subst this
    simp [hc] at h

/-- Recovery of an unquoted formatted value: the parser's
space-trim, comma-strip and quote-trim all leave a well-formed value
unchanged. -/
theorem recover_unquoted (v : Str) (hwf : wfValue v = true) :
    parseValueAsString (goTrimEnd (trimSpace v) [',']) = v := by
  simp only [wfValue, Bool.and_eq_true] at hwf
  obtain ⟨⟨⟨hcomma, hnl⟩, hspace⟩, hquote⟩ := hwf
  simp only [edgeNotSpace, edgeNotQuote, Bool.and_eq_true] at hspace hquote
  have hmem : ¬ ',' ∈ v := by simpa using hcomma
  rw [show trimSpace v = v from trimBy_eq_self isSpaceUni v hspace.1 hspace.2]
  rw [goTrimEnd_comma_of_not_mem v hmem]
  exact trimBy_eq_self isQuoteCut v hquote.1 hquote.2

/-- Recovery of a quoted formatted value: the trims remove exactly
the writer's added quotes. -/
theorem recover_quoted (v : Str) (hwf : wfValue v = true) :
    parseValueAsString (goTrimEnd (trimSpace ('"' :: v ++ ['"'])) [',']) = v := by
  simp only [wfValue, Bool.and_eq_true] at hwf
  obtain ⟨⟨⟨hcomma, hnl⟩, hspace⟩, hquote⟩ := hwf
  simp only [edgeNotSpace, edgeNotQuote, Bool.and_eq_true] at hspace hquote
  have hmem : ¬ ',' ∈ v := by simpa using hcomma
  have hhead : headNot isSpaceUni ('"' :: v ++ ['"']) = true := rfl
  have hlast : lastNot isSpaceUni ('"' :: v ++ ['"']) = true :=
    lastNot_append_right isSpaceUni ('"' :: v) ['"'] (by simp) (by decide)
  rw [show trimSpace ('"' :: v ++ ['"']) = '"' :: v ++ ['"'] from
    trimBy_eq_self isSpaceUni _ hhead hlast]
  have hmemw : ¬ ',' ∈ ('"' :: v ++ ['"']) := by
    intro hm
    rcases List.mem_append.mp hm with hv | hq
    · rcases List.mem_cons.mp hv with he | hv2
      · exact absurd he (by decide)
      · exact hmem hv2
    · exact absurd hq (by decide)
  rw [goTrimEnd_comma_of_not_mem _ hmemw]
  show trimBy isQuoteCut ('"' :: v ++ ['"']) = v
  unfold trimBy trimLeftBy
  rw [show ('"' :: v ++ ['"'] : Str) = '"' :: (v ++ ['"']) from rfl]
  rw [List.dropWhile_cons]
  simp only [show isQuoteCut '"' = true from by decide, if_pos]
  cases v with
  | nil => decide
  | cons c v' =>
    have hc : isQuoteCut c = false := by simpa [headNot] using hquote.1
    rw [List.cons_append, dropWhile_cons_of_neg _ _ _ hc]
    unfold trimRightBy
    rw [← List.cons_append, List.reverse_append]
    show (List.dropWhile isQuoteCut ('"' :: (c :: v').reverse)).reverse = c :: v'
    rw [List.dropWhile_cons]
    simp only [show isQuoteCut '"' = true from by decide, if_pos]
    cases hrev : (c :: v').reverse with
    | nil =>
      have := congrArg List.length hrev
      simp at this
    | cons d ds =>
      have hd : isQuoteCut d = false := by
        have hl := hquote.2
        unfold lastNot at hl
        rw [hrev] at hl
        simpa using hl
      rw [dropWhile_cons_of_neg _ _ _ hd, ← hrev, List.reverse_reverse]

/- ---------------------------------------------------------------
   Options round trip: parseOptions after formatOptions
   --------------------------------------------------------------- -/

theorem recover_fmtVal (v : Str) (hwf : wfValue v = true) :
    parseValueAsString (goTrimEnd (trimSpace (formatOptionValue v)) [',']) = v := by
  unfold formatOptionValue
  split_ifs with h1 h2 h3
  · exact recover_unquoted v hwf
  · exact recover_unquoted v hwf
  · exact recover_unquoted v hwf
  · exact recover_quoted v hwf

theorem startsWith_colon_ex (l : Str) (h : startsWith l (strOf ":") = true) :
    ∃ t, l = ':' :: t := by
  cases l with
  | nil => exact absurd h (by decide)
  | cons c cs =>
    by_cases hc : c = ':'
    · exact ⟨cs, by rw [hc]⟩
    · exfalso
      have hf : startsWith (c :: cs) (strOf ":") = false := by
        show (stripTok (':' :: []) (c :: cs)).isSome = false
        simp [stripTok, hc]
      rw [hf] at h
      exact Bool.noConfusion h

theorem fmtVal_shape (v : Str) (hwf : wfValue v = true) :
    formatOptionValue v ≠ [] ∧ ¬ ',' ∈ formatOptionValue v ∧
      headNot isSpaceRe (formatOptionValue v) = true := by
  have hwf2 := hwf
  simp only [wfValue, Bool.and_eq_true] at hwf2
  obtain ⟨⟨⟨hcomma, _⟩, hspace⟩, _⟩ := hwf2
  simp only [edgeNotSpace, Bool.and_eq_true] at hspace
  have hmem : ¬ ',' ∈ v := by simpa using hcomma
  have hmono : headNot isSpaceRe v = true :=
    headNot_mono isSpaceRe isSpaceUni v isSpaceRe_le_isSpaceUni hspace.1
  unfold formatOptionValue
  split_ifs with h1 h2 h3
  · simp only [Bool.or_eq_true, decide_eq_true_eq] at h1
    rcases h1 with he | he <;> (subst he; exact ⟨by decide, by decide, by decide⟩)
  · obtain ⟨t, rfl⟩ := startsWith_colon_ex v h2
    exact ⟨by simp, hmem, rfl⟩
  · have hne : v ≠ [] := by
      intro he
      rw [he] at h3
      exact absurd h3 (by decide)
    exact ⟨hne, hmem, hmono⟩
  · refine ⟨by simp, ?_, rfl⟩
    intro hm
    rcases List.mem_append.mp hm with hv | hq
    · rcases List.mem_cons.mp hv with he | hv2
      · exact absurd he (by decide)
      · exact hmem hv2
    · exact absurd hq (by decide)

theorem partShape_partOf (kv : Str × Str) (hk : wfKey kv.1 = true)
    (hv : wfValue kv.2 = true) : PartShape (partOf kv) := by
  obtain ⟨hne, hcm, hhd⟩ := fmtVal_shape kv.2 hv
  exact ⟨kv.1, formatOptionValue kv.2, rfl, hk, hne, hcm, hhd⟩

theorem orderedInsert_perm (x : Str) (l : List Str) : (orderedInsert x l).Perm (x :: l) := by
  induction l with
  | nil => exact List.Perm.refl _
  | cons y ys ih =>
    unfold orderedInsert
    split
    · exact List.Perm.refl _
    · exact List.Perm.trans (List.Perm.cons y ih) (List.Perm.swap x y ys)

theorem sortStrs_perm (l : List Str) : (sortStrs l).Perm l := by
  induction l with
  | nil => exact List.Perm.refl _
  | cons x xs ih =>
    exact List.Perm.trans (orderedInsert_perm x (sortStrs xs)) (List.Perm.cons x ih)

theorem joinSep_length_ge (parts : List Str) (h : ∀ p ∈ parts, p ≠ []) :
    parts.length ≤ (joinSep (strOf ", ") parts).length + 1 := by
  induction parts with
  | nil => simp
  | cons x xs ih =>
    cases xs with
    | nil => simp [joinSep]
    | cons y ys =>
      have hx : x ≠ [] := h x (by simp)
      have hxlen : 1 ≤ x.length := by
        cases x with
        | nil => exact absurd rfl hx
        | cons c cs => simp
      have ih2 := ih (fun p hp => h p (by simp [hp]))
      rw [show joinSep (strOf ", ") (x :: y :: ys) =
        x ++ strOf ", " ++ joinSep (strOf ", ") (y :: ys) from rfl]
      simp only [List.length_append, List.length_cons]
      simp only [List.length_cons] at ih2
      omega

theorem optInsert_append (m : List (Str × Str)) (k v : Str)
    (h : ∀ kv ∈ m, ¬ kv.1 = k) : optInsert m k v = m ++ [(k, v)] := by
  induction m with
  | nil => rfl
  | cons kv rest ih =>
    obtain ⟨k', v'⟩ := kv
    have hk : ¬ k' = k := h (k', v') (by simp)
    simp only [optInsert, if_neg hk, List.cons_append]
    rw [ih (fun kv2 h2 => h kv2 (by simp [h2]))]

theorem foldl_optInsert_map (g : Str × Str → Str) (ms : List (Str × Str)) :
    ∀ acc : List (Str × Str),
      (∀ kv ∈ ms, ∀ kv2 ∈ acc, ¬ kv2.1 = kv.1) →
      distinctOptKeys ms = true →
      ms.foldl (fun m kv => optInsert m kv.1 (g kv)) acc =
        acc ++ ms.map (fun kv => (kv.1, g kv)) := by
  induction ms with
  | nil =>
    intro acc _ _
    simp
  | cons kv rest ih =>
    intro acc hacc hnd
    have hnd2 := hnd
    simp only [distinctOptKeys, Bool.and_eq_true] at hnd2
    obtain ⟨hk1, hnd'⟩ := hnd2
    have hany : rest.any (fun kv2 => kv2.1 == kv.1) = false := by simpa using hk1
    rw [List.foldl_cons,
      optInsert_append acc kv.1 (g kv) (fun kv2 h2 => hacc kv (by simp) kv2 h2)]
    rw [ih (acc ++ [(kv.1, g kv)]) ?_ hnd']
    · simp
    · intro kv' h' kv2 h2
      rcases List.mem_append.mp h2 with h2a | h2b
      · exact hacc kv' (by simp [h']) kv2 h2a
      · have he2 : kv2 = (kv.1, g kv) := by simpa using h2b
        subst he2
        intro he
        have hcontra : rest.any (fun kv2 => kv2.1 == kv.1) = true := by
          rw [List.any_eq_true]
          refine ⟨kv', h', ?_⟩
          rw [← he]
          simp
        rw [hany] at hcontra
        exact Bool.noConfusion hcontra

theorem distinctOptKeys_iff_nodup (m : List (Str × Str)) :
    distinctOptKeys m = true ↔ (m.map Prod.fst).Nodup := by
  induction m with
  | nil => simp [distinctOptKeys]
  | cons kv rest ih =>
    simp only [distinctOptKeys, Bool.and_eq_true, List.map_cons, List.nodup_cons, ih]
    constructor
    · rintro ⟨h1, h2⟩
      refine ⟨?_, h2⟩
      intro hm
      obtain ⟨kv2, h2m, he⟩ := List.mem_map.mp hm
      have hc : rest.any (fun kv2 => kv2.1 == kv.1) = true :=
        List.any_eq_true.mpr ⟨kv2, h2m, by simp [he]⟩
      rw [hc] at h1
      exact Bool.noConfusion h1
    · rintro ⟨h1, h2⟩
      refine ⟨?_, h2⟩
      cases hany : rest.any (fun kv2 => kv2.1 == kv.1) with
      | false => simp
      | true =>
        exfalso
        obtain ⟨kv2, hm, he⟩ := List.any_eq_true.mp hany
        exact h1 (List.mem_map.mpr ⟨kv2, hm, by simpa using he⟩)

theorem optLookup_eq_some_iff (m : List (Str × Str)) (hnd : distinctOptKeys m = true)
    (k v : Str) : optLookup m k = some v ↔ (k, v) ∈ m := by
  induction m with
  | nil => simp [optLookup]
  | cons kv rest ih =>
    obtain ⟨k', v'⟩ := kv
    have hnd2 := hnd
    simp only [distinctOptKeys, Bool.and_eq_true] at hnd2
    obtain ⟨hk1, hnd'⟩ := hnd2
    have hany : rest.any (fun kv2 => kv2.1 == k') = false := by simpa using hk1
    by_cases hk : k' = k
    · subst hk
      simp only [optLookup, if_pos rfl]
      constructor
      · intro he
        have hv : v' = v := Option.some.inj he
        subst hv
        exact List.mem_cons_self _ _
      · intro hmem
        rcases List.mem_cons.mp hmem with he | hm
        · have hv2 : v = v' := by
            have := congrArg Prod.snd he
            simpa using this
          simp [hv2]
        · exfalso
          have hc : rest.any (fun kv2 => kv2.1 == k') = true :=
            List.any_eq_true.mpr ⟨(k', v), hm, by simp⟩
          rw [hany] at hc
          exact Bool.noConfusion hc
    · simp only [optLookup, if_neg hk]
      rw [ih hnd']
      constructor
      · exact fun hm => List.mem_cons_of_mem _ hm
      · intro hm
        rcases List.mem_cons.mp hm with he | hm2
        · exfalso
          apply hk
          have := congrArg Prod.fst he
          simpa using this.symm
        · exact hm2

theorem optLookup_eq_none_iff (m : List (Str × Str)) (k : Str) :
    optLookup m k = none ↔ ∀ v', ¬ (k, v') ∈ m := by
  induction m with
  | nil => simp [optLookup]
  | cons kv rest ih =>
    obtain ⟨k', v'⟩ := kv
    by_cases hk : k' = k
    · subst hk
      simp only [optLookup, if_pos rfl]
      constructor
      · intro he
        exact absurd he (by simp)
      · intro h
        exact absurd (List.mem_cons_self (k', v') rest) (h v')
    · simp only [optLookup, if_neg hk]
      rw [ih]
      constructor
      · intro h v' hm
        rcases List.mem_cons.mp hm with he | hm2
        · apply hk
          have := congrArg Prod.fst he
          simpa using this.symm
        · exact h v' hm2
      · intro h v' hm
        exact h v' (List.mem_cons_of_mem _ hm)

theorem optLookup_perm (m1 m2 : List (Str × Str)) (h : m1.Perm m2)
    (hnd : distinctOptKeys m2 = true) (k : Str) :
    optLookup m1 k = optLookup m2 k := by
  have hnd1 : distinctOptKeys m1 = true := by
    rw [distinctOptKeys_iff_nodup]
    rw [distinctOptKeys_iff_nodup] at hnd
    exact ((h.map Prod.fst).nodup_iff).mpr hnd
  cases hv : optLookup m2 k with
  | some v =>
    rw [optLookup_eq_some_iff m2 hnd k v] at hv
    exact (optLookup_eq_some_iff m1 hnd1 k v).mpr (h.mem_iff.mpr hv)
  | none =>
    rw [optLookup_eq_none_iff] at hv
    rw [optLookup_eq_none_iff]
    intro v' hm
    exact hv v' (h.mem_iff.mp hm)

/-- parseOptions recovers the options map from formatOptions output:
the resulting association list is a permutation of the original, so
every key looks up to the same value. -/
theorem parseOptions_formatOptions (opts : List (Str × Str)) (pkg : Package)
    (hwf : wfOptions opts = true) (hpo : pkg.options = []) :
    ∃ o2, parseOptions (formatOptions opts) pkg = { pkg with options := o2 } ∧
      (∀ k, optLookup o2 k = optLookup opts k) := by
  have hwf2 := hwf
  simp only [wfOptions, Bool.and_eq_true, List.all_eq_true] at hwf2
  obtain ⟨hall, hnd⟩ := hwf2
  have hperm : (sortStrs (opts.map partOf)).Perm (opts.map partOf) := sortStrs_perm _
  have hshape : ∀ part ∈ sortStrs (opts.map partOf), PartShape part := by
    intro part hp
    have hp2 : part ∈ opts.map partOf := hperm.mem_iff.mp hp
    obtain ⟨kv, hkv, rfl⟩ := List.mem_map.mp hp2
    have h2 := hall kv hkv
    simp only [Bool.and_eq_true] at h2
    exact partShape_partOf kv h2.1 h2.2
  have hne_parts : ∀ p ∈ sortStrs (opts.map partOf), p ≠ [] := by
    intro p hp
    obtain ⟨k, vf, rfl, hk, _, _, _⟩ := hshape p hp
    obtain ⟨kc, k', rfl⟩ : ∃ kc k', k = kc :: k' := by
      cases k with
      | nil => exact absurd rfl (wfKey_ne_nil [] hk)
      | cons kc k' => exact ⟨kc, k', rfl⟩
    simp
  have hfuel : (sortStrs (opts.map partOf)).length ≤ (formatOptions opts).length + 1 := by
    have := joinSep_length_ge (sortStrs (opts.map partOf)) hne_parts
    simpa [formatOptions] using this
  have hfa : findAllOptions ((formatOptions opts).length + 1) (formatOptions opts) =
      (sortStrs (opts.map partOf)).map (fun part => (keyOfPart part, valOfPart part)) :=
    findAllOptions_joinSep (sortStrs (opts.map partOf)) _ hfuel hshape
  set ms := (sortStrs (opts.map partOf)).map (fun part => (keyOfPart part, valOfPart part))
    with hmsdef
  have hms_perm : ms.Perm (opts.map (fun kv => (kv.1, formatOptionValue kv.2))) := by
    have h1 : ms.Perm ((opts.map partOf).map (fun part => (keyOfPart part, valOfPart part))) :=
      hperm.map _
    have h2 : (opts.map partOf).map (fun part => (keyOfPart part, valOfPart part)) =
        opts.map (fun kv => (kv.1, formatOptionValue kv.2)) := by
      rw [List.map_map]
      apply List.map_congr_left
      intro kv hkv
      have h3 := hall kv hkv
      simp only [Bool.and_eq_true] at h3
      simp only [Function.comp]
      rw [show partOf kv = kv.1 ++ ':' :: ' ' :: formatOptionValue kv.2 from rfl]
      rw [keyOfPart_eq _ _ h3.1, valOfPart_eq _ _ h3.1]
    rw [← h2]
    exact h1
  have hnd_ms : distinctOptKeys ms = true := by
    rw [distinctOptKeys_iff_nodup]
    have hkeys := hms_perm.map Prod.fst
    have he : (opts.map (fun kv => (kv.1, formatOptionValue kv.2))).map Prod.fst =
        opts.map Prod.fst := by
      rw [List.map_map]
      rfl
    rw [he] at hkeys
    rw [hkeys.nodup_iff]
    exact (distinctOptKeys_iff_nodup opts).mp hnd
  refine ⟨ms.map (fun kv => (kv.1, parseValueAsString (goTrimEnd (trimSpace kv.2) [',']))),
    ?_, ?_⟩
  · simp only [parseOptions]
    rw [hfa, hpo]
    rw [foldl_optInsert_map (fun kv => parseValueAsString (goTrimEnd (trimSpace kv.2) [','])) ms
      [] (by intro kv _ kv2 h2; simp at h2) hnd_ms]
    rw [List.nil_append]
  · intro k
    have hperm2 : (ms.map
        (fun kv => (kv.1, parseValueAsString (goTrimEnd (trimSpace kv.2) [','])))).Perm opts := by
      have h1 := hms_perm.map
        (fun kv => (kv.1, parseValueAsString (goTrimEnd (trimSpace kv.2) [','])))
      have h2 : (opts.map (fun kv => (kv.1, formatOptionValue kv.2))).map
          (fun kv => (kv.1, parseValueAsString (goTrimEnd (trimSpace kv.2) [',']))) = opts := by
        rw [List.map_map]
        have h3 : ∀ kv ∈ opts,
            ((fun kv : Str × Str => (kv.1, parseValueAsString (goTrimEnd (trimSpace kv.2) [','])))
              ∘ (fun kv : Str × Str => (kv.1, formatOptionValue kv.2))) kv = id kv := by
          intro kv hkv
          have h4 := hall kv hkv
          simp only [Bool.and_eq_true] at h4
          simp only [Function.comp]
          rw [recover_fmtVal kv.2 h4.2]
          rfl
        rw [List.map_congr_left h3, List.map_id]
      rw [h2] at h1
      exact h1
    exact optLookup_perm _ opts hperm2 hnd k

/- ---------------------------------------------------------------
   Declaration lines parse back
   --------------------------------------------------------------- -/

/-- The anchored declaration pattern accepts exactly the line the
writer produced: keyword, one space, the quoted name, then whatever
tail, handing the tail to the option group. -/
theorem matchDecl_format (kw name tl : Str) (hn1 : name ≠ []) (hn2 : ¬ '"' ∈ name) :
    matchDecl kw ((kw ++ ' ' :: '"' :: name) ++ '"' :: tl) = some (name, optTail tl) := by
  have hstrip : stripTok kw ((kw ++ ' ' :: '"' :: name) ++ '"' :: tl) =
      some (' ' :: '"' :: (name ++ '"' :: tl)) := by
    rw [List.append_assoc]
    exact stripTok_self_append kw _
  have hname : ∀ x ∈ name, (!(x = '"')) = true := by
    intro x hx
    have : ¬ x = '"' := fun he => hn2 (he ▸ hx)
    simp [this]
  have htake : (' ' :: '"' :: (name ++ '"' :: tl)).takeWhile isSpaceRe = [' '] := by
    rw [List.takeWhile_cons]
    simp only [show isSpaceRe ' ' = true from rfl, if_pos]
    rw [List.takeWhile_cons]
    simp [show isSpaceRe '"' = false from rfl]
  have hdrop : (' ' :: '"' :: (name ++ '"' :: tl)).dropWhile isSpaceRe =
      '"' :: (name ++ '"' :: tl) := by
    rw [List.dropWhile_cons]
    simp only [show isSpaceRe ' ' = true from rfl, if_pos]
    exact dropWhile_cons_of_neg _ _ _ (show isSpaceRe '"' = false from rfl)
  have hnameisEmpty : name.isEmpty = false := by
    cases name with
    | nil => exact absurd rfl hn1
    | cons c cs => rfl
  simp only [matchDecl, hstrip, htake, hdrop]
  simp only [List.isEmpty_cons, Bool.false_eq_true, if_false]
  rw [takeWhile_append_cons _ name '"' tl hname (by simp)]
  rw [dropWhile_append_cons _ name '"' tl hname (by simp)]
  simp [hnameisEmpty]

theorem optTail_nil : optTail [] = none := rfl

theorem optTail_comma_space (u : Str) (hu : u ≠ [])
    (hh : headNot isSpaceRe u = true) : optTail (',' :: ' ' :: u) = some u := by
  obtain ⟨c, u', rfl⟩ : ∃ c u', u = c :: u' := by
    cases u with
    | nil => exact absurd rfl hu
    | cons c u' => exact ⟨c, u', rfl⟩
  have hc : isSpaceRe c = false := by simpa [headNot] using hh
  have hdrop : (',' :: ' ' :: c :: u').dropWhile isSpaceRe = ',' :: ' ' :: c :: u' :=
    dropWhile_cons_of_neg _ _ _ (show isSpaceRe ',' = false from rfl)
  have hdrop2 : (' ' :: c :: u').dropWhile isSpaceRe = c :: u' := by
    rw [List.dropWhile_cons]
    simp only [show isSpaceRe ' ' = true from rfl, if_pos]
    exact dropWhile_cons_of_neg _ _ _ hc
  simp only [optTail, hdrop, hdrop2]
  simp

theorem parseLine_tap (name tl : Str) (hn1 : name ≠ []) (hn2 : ¬ '"' ∈ name) :
    parseLine ((strOf "tap" ++ ' ' :: '"' :: name) ++ '"' :: tl) =
      some (applyOpts (NewPackage (strOf "tap") name) (optTail tl)) := by
  simp only [parseLine, matchDecl_format (strOf "tap") name tl hn1 hn2]

theorem parseLine_brew (name tl : Str) (hn1 : name ≠ []) (hn2 : ¬ '"' ∈ name) :
    parseLine ((strOf "brew" ++ ' ' :: '"' :: name) ++ '"' :: tl) =
      some (applyOpts (NewPackage (strOf "brew") name) (optTail tl)) := by
  have h1 : matchDecl (strOf "tap") ((strOf "brew" ++ ' ' :: '"' :: name) ++ '"' :: tl) =
      none := rfl
  simp only [parseLine, h1, matchDecl_format (strOf "brew") name tl hn1 hn2]

theorem parseLine_cask (name tl : Str) (hn1 : name ≠ []) (hn2 : ¬ '"' ∈ name) :
    parseLine ((strOf "cask" ++ ' ' :: '"' :: name) ++ '"' :: tl) =
      some (applyOpts (NewPackage (strOf "cask") name) (optTail tl)) := by
  have h1 : matchDecl (strOf "tap") ((strOf "cask" ++ ' ' :: '"' :: name) ++ '"' :: tl) =
      none := rfl
  have h2 : matchDecl (strOf "brew") ((strOf "cask" ++ ' ' :: '"' :: name) ++ '"' :: tl) =
      none := rfl
  simp only [parseLine, h1, h2, matchDecl_format (strOf "cask") name tl hn1 hn2]

theorem parseLine_mas (name tl : Str) (hn1 : name ≠ []) (hn2 : ¬ '"' ∈ name) :
    parseLine ((strOf "mas" ++ ' ' :: '"' :: name) ++ '"' :: tl) =
      some (applyOpts (NewPackage (strOf "mas") name) (optTail tl)) := by
  have h1 : matchDecl (strOf "tap") ((strOf "mas" ++ ' ' :: '"' :: name) ++ '"' :: tl) =
      none := rfl
  have h2 : matchDecl (strOf "brew") ((strOf "mas" ++ ' ' :: '"' :: name) ++ '"' :: tl) =
      none := rfl
  have h3 : matchDecl (strOf "cask") ((strOf "mas" ++ ' ' :: '"' :: name) ++ '"' :: tl) =
      none := rfl
  simp only [parseLine, h1, h2, h3, matchDecl_format (strOf "mas") name tl hn1 hn2]

theorem parseLine_vscode (name : Str) (hn1 : name ≠ []) (hn2 : ¬ '"' ∈ name) :
    parseLine ((strOf "vscode" ++ ' ' :: '"' :: name) ++ '"' :: []) =
      some (NewPackage (strOf "vscode") name) := by
  have h1 : matchDecl (strOf "tap") ((strOf "vscode" ++ ' ' :: '"' :: name) ++ '"' :: []) =
      none := rfl
  have h2 : matchDecl (strOf "brew") ((strOf "vscode" ++ ' ' :: '"' :: name) ++ '"' :: []) =
      none := rfl
  have h3 : matchDecl (strOf "cask") ((strOf "vscode" ++ ' ' :: '"' :: name) ++ '"' :: []) =
      none := rfl
  have h4 : matchDecl (strOf "mas") ((strOf "vscode" ++ ' ' :: '"' :: name) ++ '"' :: []) =
      none := rfl
  simp only [parseLine, h1, h2, h3, h4, matchSimple,
    matchDecl_format (strOf "vscode") name [] hn1 hn2]

theorem parseLine_cursor (name : Str) (hn1 : name ≠ []) (hn2 : ¬ '"' ∈ name) :
    parseLine ((strOf "cursor" ++ ' ' :: '"' :: name) ++ '"' :: []) =
      some (NewPackage (strOf "cursor") name) := by
  have h1 : matchDecl (strOf "tap") ((strOf "cursor" ++ ' ' :: '"' :: name) ++ '"' :: []) =
      none := rfl
  have h2 : matchDecl (strOf "brew") ((strOf "cursor" ++ ' ' :: '"' :: name) ++ '"' :: []) =
      none := rfl
  have h3 : matchDecl (strOf "cask") ((strOf "cursor" ++ ' ' :: '"' :: name) ++ '"' :: []) =
      none := rfl
  have h4 : matchDecl (strOf "mas") ((strOf "cursor" ++ ' ' :: '"' :: name) ++ '"' :: []) =
      none := rfl
  have h5 : matchDecl (strOf "vscode") ((strOf "cursor" ++ ' ' :: '"' :: name) ++ '"' :: []) =
      none := rfl
  simp only [parseLine, h1, h2, h3, h4, h5, matchSimple,
    matchDecl_format (strOf "cursor") name [] hn1 hn2]

theorem parseLine_antigravity (name : Str) (hn1 : name ≠ []) (hn2 : ¬ '"' ∈ name) :
    parseLine ((strOf "antigravity" ++ ' ' :: '"' :: name) ++ '"' :: []) =
      some (NewPackage (strOf "antigravity") name) := by
  have h1 : matchDecl (strOf "tap")
      ((strOf "antigravity" ++ ' ' :: '"' :: name) ++ '"' :: []) = none := rfl
  have h2 : matchDecl (strOf "brew")
      ((strOf "antigravity" ++ ' ' :: '"' :: name) ++ '"' :: []) = none := rfl
  have h3 : matchDecl (strOf "cask")
      ((strOf "antigravity" ++ ' ' :: '"' :: name) ++ '"' :: []) = none := rfl
  have h4 : matchDecl (strOf "mas")
      ((strOf "antigravity" ++ ' ' :: '"' :: name) ++ '"' :: []) = none := rfl
  have h5 : matchDecl (strOf "vscode")
      ((strOf "antigravity" ++ ' ' :: '"' :: name) ++ '"' :: []) = none := rfl
  have h6 : matchDecl (strOf "cursor")
      ((strOf "antigravity" ++ ' ' :: '"' :: name) ++ '"' :: []) = none := rfl
  simp only [parseLine, h1, h2, h3, h4, h5, h6, matchSimple,
    matchDecl_format (strOf "antigravity") name [] hn1 hn2]

theorem parseLine_go (name : Str) (hn1 : name ≠ []) (hn2 : ¬ '"' ∈ name) :
    parseLine ((strOf "go" ++ ' ' :: '"' :: name) ++ '"' :: []) =
      some (NewPackage (strOf "go") name) := by
  have h1 : matchDecl (strOf "tap") ((strOf "go" ++ ' ' :: '"' :: name) ++ '"' :: []) =
      none := rfl
  have h2 : matchDecl (strOf "brew") ((strOf "go" ++ ' ' :: '"' :: name) ++ '"' :: []) =
      none := rfl
  have h3 : matchDecl (strOf "cask") ((strOf "go" ++ ' ' :: '"' :: name) ++ '"' :: []) =
      none := rfl
  have h4 : matchDecl (strOf "mas") ((strOf "go" ++ ' ' :: '"' :: name) ++ '"' :: []) =
      none := rfl
  have h5 : matchDecl (strOf "vscode") ((strOf "go" ++ ' ' :: '"' :: name) ++ '"' :: []) =
      none := rfl
  have h6 : matchDecl (strOf "cursor") ((strOf "go" ++ ' ' :: '"' :: name) ++ '"' :: []) =
      none := rfl
  have h7 : matchDecl (strOf "antigravity") ((strOf "go" ++ ' ' :: '"' :: name) ++ '"' :: []) =
      none := rfl
  simp only [parseLine, h1, h2, h3, h4, h5, h6, h7, matchSimple,
    matchDecl_format (strOf "go") name [] hn1 hn2]

theorem formatOptions_shape (opts : List (Str × Str)) (hwf : wfOptions opts = true)
    (hne : opts ≠ []) :
    formatOptions opts ≠ [] ∧ headNot isSpaceRe (formatOptions opts) = true := by
  have hwf2 := hwf
  simp only [wfOptions, Bool.and_eq_true, List.all_eq_true] at hwf2
  obtain ⟨hall, _⟩ := hwf2
  have hperm : (sortStrs (opts.map partOf)).Perm (opts.map partOf) := sortStrs_perm _
  have hlen : (sortStrs (opts.map partOf)).length = opts.length := by
    rw [hperm.length_eq, List.length_map]
  cases hs : sortStrs (opts.map partOf) with
  | nil =>
    exfalso
    rw [hs] at hlen
    cases opts with
    | nil => exact hne rfl
    | cons kv rest => simp at hlen
  | cons r rs =>
    have hr : PartShape r := by
      have hmem : r ∈ opts.map partOf := by
        rw [← hperm.mem_iff, hs]
        simp
      obtain ⟨kv, hkv, rfl⟩ := List.mem_map.mp hmem
      have h2 := hall kv hkv
      simp only [Bool.and_eq_true] at h2
      exact partShape_partOf kv h2.1 h2.2
    constructor
    · show joinSep (strOf ", ") (sortStrs (opts.map partOf)) ≠ []
      rw [hs]
      obtain ⟨X, hX⟩ := joinSep_cons_decomp (strOf ", ") r rs
      rw [hX]
      obtain ⟨k, vf, rfl, hk, _, _, _⟩ := hr
      obtain ⟨kc, k', rfl⟩ : ∃ kc k', k = kc :: k' := by
        cases k with
        | nil => exact absurd rfl (wfKey_ne_nil [] hk)
        | cons kc k' => exact ⟨kc, k', rfl⟩
      simp
    · show headNot isSpaceRe (joinSep (strOf ", ") (sortStrs (opts.map partOf))) = true
      rw [hs]
      exact headNot_isSpaceRe_joinSep r rs hr

theorem parseOptions_id (v : Str) (pkg : Package) (hv : wfValue v = true) (hvne : v ≠ [])
    (hpo : pkg.options = []) :
    parseOptions (strOf "id" ++ ':' :: ' ' :: v) pkg =
      { pkg with options := [(strOf "id", v)] } := by
  have hv2 := hv
  simp only [wfValue, Bool.and_eq_true] at hv2
  obtain ⟨⟨⟨hcomma, _⟩, hspace⟩, _⟩ := hv2
  simp only [edgeNotSpace, Bool.and_eq_true] at hspace
  have hmem : ¬ ',' ∈ v := by simpa using hcomma
  have hmono := headNot_mono isSpaceRe isSpaceUni v isSpaceRe_le_isSpaceUni hspace.1
  have hshape : ∀ part ∈ [strOf "id" ++ ':' :: ' ' :: v], PartShape part := by
    intro part hp
    have he : part = strOf "id" ++ ':' :: ' ' :: v := by simpa using hp
    subst he
    exact ⟨strOf "id", v, rfl, by decide, hvne, hmem, hmono⟩
  have hfuel : ([strOf "id" ++ ':' :: ' ' :: v] : List Str).length ≤
      (strOf "id" ++ ':' :: ' ' :: v).length + 1 := by simp
  have hfa := findAllOptions_joinSep [strOf "id" ++ ':' :: ' ' :: v] _ hfuel hshape
  rw [show joinSep (strOf ", ") [strOf "id" ++ ':' :: ' ' :: v] =
    strOf "id" ++ ':' :: ' ' :: v from rfl] at hfa
  have hnd1 : distinctOptKeys [(keyOfPart (strOf "id" ++ ':' :: ' ' :: v),
      valOfPart (strOf "id" ++ ':' :: ' ' :: v))] = true := rfl
  simp only [parseOptions]
  rw [hfa, hpo]
  simp only [List.map_cons, List.map_nil]
  rw [foldl_optInsert_map (fun kv => parseValueAsString (goTrimEnd (trimSpace kv.2) [',']))
    _ [] (by intro kv _ kv2 h2; simp at h2) hnd1]
  simp only [List.map_cons, List.map_nil, List.nil_append]
  rw [keyOfPart_eq (strOf "id") v (by decide), valOfPart_eq (strOf "id") v (by decide)]
  rw [recover_unquoted v hv]

/-- Formatted declarations parse back: for a well-formed record the
parser accepts the writer's line and reproduces category, name and
options (up to lookup); the description is attached separately from
the comment line, and FullName is never reconstructed. -/
theorem parseLine_formatPackage (p : Package) (hwf : wfPackage p = true) :
    ∃ opts, parseLine (formatPackage p) =
      some { ptype := p.ptype, name := p.name, fullName := [], options := opts,
             description := [] } ∧
      ∀ k, optLookup opts k = optLookup p.options k := by
  have hwf2 := hwf
  simp only [wfPackage, Bool.and_eq_true] at hwf2
  obtain ⟨⟨hname, hdesc⟩, hcat⟩ := hwf2
  simp only [wfName, Bool.and_eq_true] at hname
  obtain ⟨⟨hne0, hq0⟩, _⟩ := hname
  have hne : p.name ≠ [] := by
    intro he
    rw [he] at hne0
    exact absurd hne0 (by decide)
  have hq : ¬ '"' ∈ p.name := by simpa using hq0
  by_cases ht : p.ptype = strOf "tap"
  · rw [ht] at hcat
    rw [if_pos rfl] at hcat
    have hopts : p.options = [] := by simpa [List.isEmpty_iff] using hcat
    have hfmt : formatPackage p = (strOf "tap" ++ ' ' :: '"' :: p.name) ++ '"' :: [] := by
      unfold formatPackage
      rw [if_pos ht]
      rw [show (strOf "tap \"" : Str) = strOf "tap" ++ ' ' :: '"' :: [] from rfl,
        show (strOf "\"" : Str) = ['"'] from rfl]
      simp [List.append_assoc]
    refine ⟨[], ?_, ?_⟩
    · rw [hfmt, parseLine_tap p.name [] hne hq, ht]
      rfl
    · intro k
      rw [hopts]
  by_cases hb : p.ptype = strOf "brew"
  · rw [hb] at hcat
    rw [if_neg (by decide), if_pos (by decide)] at hcat
    by_cases hoe : p.options = []
    · have hfmt : formatPackage p = (strOf "brew" ++ ' ' :: '"' :: p.name) ++ '"' :: [] := by
        unfold formatPackage
        rw [if_neg ht, if_pos hb, if_pos (show p.options.isEmpty = true by rw [hoe]; rfl)]
        rw [show (strOf "brew \"" : Str) = strOf "brew" ++ ' ' :: '"' :: [] from rfl,
        show (strOf "\"" : Str) = ['"'] from rfl]
        simp [List.append_assoc]
      refine ⟨[], ?_, ?_⟩
      · rw [hfmt, parseLine_brew p.name [] hne hq, hb]
        rfl
      · intro k
        rw [hoe]
    · have hniE : p.options.isEmpty = false := by
        cases hop : p.options with
        | nil => exact absurd hop hoe
        | cons kv rest => rfl
      have hfmt : formatPackage p = (strOf "brew" ++ ' ' :: '"' :: p.name) ++
          '"' :: (',' :: ' ' :: formatOptions p.options) := by
        unfold formatPackage
        rw [if_neg ht, if_pos hb, if_neg (show ¬ p.options.isEmpty = true by simp [hniE])]
        rw [show (strOf "brew \"" : Str) = strOf "brew" ++ ' ' :: '"' :: [] from rfl,
          show (strOf "\", " : Str) = '"' :: ',' :: ' ' :: [] from rfl]
        simp [List.append_assoc]
      obtain ⟨hfne, hfhead⟩ := formatOptions_shape p.options hcat hoe
      have hot : optTail (',' :: ' ' :: formatOptions p.options) =
          some (formatOptions p.options) := optTail_comma_space _ hfne hfhead
      obtain ⟨o2, hpo2, hlk⟩ := parseOptions_formatOptions p.options
        (NewPackage (strOf "brew") p.name) hcat rfl
      have hsie : (formatOptions p.options).isEmpty = false := by
        cases hfo : formatOptions p.options with
        | nil => exact absurd hfo hfne
        | cons c cs => rfl
      refine ⟨o2, ?_, hlk⟩
      rw [hfmt, parseLine_brew p.name _ hne hq, hot]
      simp only [applyOpts, hsie, Bool.false_eq_true, if_false]
      rw [hpo2, hb]
      rfl
  by_cases hc : p.ptype = strOf "cask"
  · rw [hc] at hcat
    rw [if_neg (by decide), if_pos (by decide)] at hcat
    by_cases hoe : p.options = []
    · have hfmt : formatPackage p = (strOf "cask" ++ ' ' :: '"' :: p.name) ++ '"' :: [] := by
        unfold formatPackage
        rw [if_neg ht, if_neg hb, if_pos hc,
          if_pos (show p.options.isEmpty = true by rw [hoe]; rfl)]
        rw [show (strOf "cask \"" : Str) = strOf "cask" ++ ' ' :: '"' :: [] from rfl,
        show (strOf "\"" : Str) = ['"'] from rfl]
        simp [List.append_assoc]
      refine ⟨[], ?_, ?_⟩
      · rw [hfmt, parseLine_cask p.name [] hne hq, hc]
        rfl
      · intro k
        rw [hoe]
    · have hniE : p.options.isEmpty = false := by
        cases hop : p.options with
        | nil => exact absurd hop hoe
        | cons kv rest => rfl
      have hfmt : formatPackage p = (strOf "cask" ++ ' ' :: '"' :: p.name) ++
          '"' :: (',' :: ' ' :: formatOptions p.options) := by
        unfold formatPackage
        rw [if_neg ht, if_neg hb, if_pos hc,
          if_neg (show ¬ p.options.isEmpty = true by simp [hniE])]
        rw [show (strOf "cask \"" : Str) = strOf "cask" ++ ' ' :: '"' :: [] from rfl,
          show (strOf "\", " : Str) = '"' :: ',' :: ' ' :: [] from rfl]
        simp [List.append_assoc]
      obtain ⟨hfne, hfhead⟩ := formatOptions_shape p.options hcat hoe
      have hot : optTail (',' :: ' ' :: formatOptions p.options) =
          some (formatOptions p.options) := optTail_comma_space _ hfne hfhead
      obtain ⟨o2, hpo2, hlk⟩ := parseOptions_formatOptions p.options
        (NewPackage (strOf "cask") p.name) hcat rfl
      have hsie : (formatOptions p.options).isEmpty = false := by
        cases hfo : formatOptions p.options with
        | nil => exact absurd hfo hfne
        | cons c cs => rfl
      refine ⟨o2, ?_, hlk⟩
      rw [hfmt, parseLine_cask p.name _ hne hq, hot]
      simp only [applyOpts, hsie, Bool.false_eq_true, if_false]
      rw [hpo2, hc]
      rfl
  by_cases hm : p.ptype = strOf "mas"
  · rw [hm] at hcat
    rw [if_neg (by decide), if_neg (by decide), if_pos rfl] at hcat
    simp only [Bool.and_eq_true, Bool.or_eq_true] at hcat
    obtain ⟨hfn0, hrest⟩ := hcat
    have hfn : p.fullName = [] := by simpa [List.isEmpty_iff] using hfn0
    rcases hrest with hoe0 | hid
    · have hoe : p.options = [] := by simpa [List.isEmpty_iff] using hoe0
      have hfmt : formatPackage p = (strOf "mas" ++ ' ' :: '"' :: p.name) ++ '"' :: [] := by
        unfold formatPackage
        rw [if_neg ht, if_neg hb, if_neg hc, if_pos hm, hoe]
        rw [show optLookup ([] : List (Str × Str)) (strOf "id") = none from rfl]
        rw [show (strOf "mas \"" : Str) = strOf "mas" ++ ' ' :: '"' :: [] from rfl,
        show (strOf "\"" : Str) = ['"'] from rfl]
        simp [List.append_assoc]
      refine ⟨[], ?_, ?_⟩
      · rw [hfmt, parseLine_mas p.name [] hne hq, hm]
        rfl
      · intro k
        rw [hoe]
    · obtain ⟨kv, hkv⟩ : ∃ kv, p.options = [kv] := by
        cases hop : p.options with
        | nil =>
          rw [hop] at hid
          simp at hid
        | cons kv rest =>
          cases rest with
          | nil => exact ⟨kv, rfl⟩
          | cons kv2 r2 =>
            rw [hop] at hid
            simp at hid
      obtain ⟨k1, v⟩ := kv
      rw [hkv] at hid
      simp only [Bool.and_eq_true, beq_iff_eq] at hid
      obtain ⟨⟨hk1, hkwf⟩, hkne0⟩ := hid
      have hkne : v ≠ [] := by
        intro he
        rw [he] at hkne0
        exact absurd hkne0 (by decide)
      have hlook : optLookup p.options (strOf "id") = some v := by
        rw [hkv, hk1]
        simp [optLookup]
      have hfmt : formatPackage p = (strOf "mas" ++ ' ' :: '"' :: p.name) ++
          '"' :: (',' :: ' ' :: (strOf "id" ++ ':' :: ' ' :: v)) := by
        unfold formatPackage
        rw [if_neg ht, if_neg hb, if_neg hc, if_pos hm, hlook]
        rw [show p.fullName.isEmpty = true by rw [hfn]; rfl]
        rw [if_pos rfl]
        rw [show (strOf "mas \"" : Str) = strOf "mas" ++ ' ' :: '"' :: [] from rfl,
          show (strOf "\", id: " : Str) = '"' :: ',' :: ' ' :: 'i' :: 'd' :: ':' :: ' ' :: [] from rfl,
          show (strOf "id" : Str) = 'i' :: 'd' :: [] from rfl]
        simp [List.append_assoc]
      have hhead : headNot isSpaceRe (strOf "id" ++ ':' :: ' ' :: v) = true := rfl
      have huneq : (strOf "id" ++ ':' :: ' ' :: v : Str) ≠ [] := by
        rw [show (strOf "id" : Str) = 'i' :: 'd' :: [] from rfl]
        simp
      have hot : optTail (',' :: ' ' :: (strOf "id" ++ ':' :: ' ' :: v)) =
          some (strOf "id" ++ ':' :: ' ' :: v) := optTail_comma_space _ huneq hhead
      have hsie : (strOf "id" ++ ':' :: ' ' :: v : Str).isEmpty = false := rfl
      refine ⟨[(strOf "id", v)], ?_, ?_⟩
      · rw [hfmt, parseLine_mas p.name _ hne hq, hot]
        simp only [applyOpts, hsie, Bool.false_eq_true, if_false]
        rw [parseOptions_id v (NewPackage (strOf "mas") p.name) hkwf hkne rfl, hm]
        rfl
      · intro k
        rw [hkv, hk1]
  by_cases hv : p.ptype = strOf "vscode"
  · rw [hv] at hcat
    rw [if_neg (by decide), if_neg (by decide), if_neg (by decide), if_pos rfl] at hcat
    have hopts : p.options = [] := by simpa [List.isEmpty_iff] using hcat
    have hfmt : formatPackage p = (strOf "vscode" ++ ' ' :: '"' :: p.name) ++ '"' :: [] := by
      unfold formatPackage
      rw [if_neg ht, if_neg hb, if_neg hc, if_neg hm, if_pos hv]
      rw [show (strOf "vscode \"" : Str) = strOf "vscode" ++ ' ' :: '"' :: [] from rfl,
        show (strOf "\"" : Str) = ['"'] from rfl]
      simp [List.append_assoc]
    refine ⟨[], ?_, ?_⟩
    · rw [hfmt, parseLine_vscode p.name hne hq, hv]
      rfl
    · intro k
      rw [hopts]
  by_cases hcur : p.ptype = strOf "cursor"
  · rw [hcur] at hcat
    rw [if_neg (by decide), if_neg (by decide), if_neg (by decide), if_neg (by decide),
      if_pos (by decide)] at hcat
    simp only [Bool.and_eq_true] at hcat
    have hopts : p.options = [] := by simpa [List.isEmpty_iff] using hcat.1
    have hfmt : formatPackage p = (strOf "cursor" ++ ' ' :: '"' :: p.name) ++ '"' :: [] := by
      unfold formatPackage
      rw [if_neg ht, if_neg hb, if_neg hc, if_neg hm, if_neg hv, if_pos hcur]
      rw [show (strOf "cursor \"" : Str) = strOf "cursor" ++ ' ' :: '"' :: [] from rfl,
        show (strOf "\"" : Str) = ['"'] from rfl]
      simp [List.append_assoc]
    refine ⟨[], ?_, ?_⟩
    · rw [hfmt, parseLine_cursor p.name hne hq, hcur]
      rfl
    · intro k
      rw [hopts]
  by_cases hag : p.ptype = strOf "antigravity"
  · rw [hag] at hcat
    rw [if_neg (by decide), if_neg (by decide), if_neg (by decide), if_neg (by decide),
      if_pos (by decide)] at hcat
    simp only [Bool.and_eq_true] at hcat
    have hopts : p.options = [] := by simpa [List.isEmpty_iff] using hcat.1
    have hfmt : formatPackage p = (strOf "antigravity" ++ ' ' :: '"' :: p.name) ++ '"' :: [] := by
      unfold formatPackage
      rw [if_neg ht, if_neg hb, if_neg hc, if_neg hm, if_neg hv, if_neg hcur, if_pos hag]
      rw [show (strOf "antigravity \"" : Str) = strOf "antigravity" ++ ' ' :: '"' :: [] from rfl,
        show (strOf "\"" : Str) = ['"'] from rfl]
      simp [List.append_assoc]
    refine ⟨[], ?_, ?_⟩
    · rw [hfmt, parseLine_antigravity p.name hne hq, hag]
      rfl
    · intro k
      rw [hopts]
  by_cases hgo : p.ptype = strOf "go"
  · rw [hgo] at hcat
    rw [if_neg (by decide), if_neg (by decide), if_neg (by decide), if_neg (by decide),
      if_pos (by decide)] at hcat
    simp only [Bool.and_eq_true] at hcat
    have hopts : p.options = [] := by simpa [List.isEmpty_iff] using hcat.1
    have hfmt : formatPackage p = (strOf "go" ++ ' ' :: '"' :: p.name) ++ '"' :: [] := by
      unfold formatPackage
      rw [if_neg ht, if_neg hb, if_neg hc, if_neg hm, if_neg hv, if_neg hcur, if_neg hag,
        if_pos hgo]
      rw [show (strOf "go \"" : Str) = strOf "go" ++ ' ' :: '"' :: [] from rfl,
        show (strOf "\"" : Str) = ['"'] from rfl]
      simp [List.append_assoc]
    refine ⟨[], ?_, ?_⟩
    · rw [hfmt, parseLine_go p.name hne hq, hgo]
      rfl
    · intro k
      rw [hopts]
  exfalso
  rw [if_neg ht] at hcat
  rw [if_neg (show ¬ ((p.ptype = strOf "brew" || p.ptype = strOf "cask") = true) by
    simp [hb, hc])] at hcat
  rw [if_neg hm, if_neg hv] at hcat
  rw [if_neg (show ¬ (isExtensionType p.ptype = true) by
    simp [isExtensionType, hcur, hag, hgo])] at hcat
  exact Bool.noConfusion hcat

theorem pkgOrderedInsert_perm (x : Package) (l : List Package) :
    (pkgOrderedInsert x l).Perm (x :: l) := by
  induction l with
  | nil => exact List.Perm.refl _
  | cons y ys ih =>
    unfold pkgOrderedInsert
    split
    · exact List.Perm.refl _
    · exact (List.Perm.cons y ih).trans (List.Perm.swap x y ys)

theorem sortByName_perm (ps : List Package) : (sortByName ps).Perm ps := by
  induction ps with
  | nil => exact List.Perm.refl _
  | cons x xs ih =>
    have h1 : sortByName (x :: xs) = pkgOrderedInsert x (sortByName xs) := rfl
    rw [h1]
    exact (pkgOrderedInsert_perm x (sortByName xs)).trans (List.Perm.cons x ih)

theorem fmtVal_tail (v : Str) (hwf : wfValue v = true) :
    lastNot isSpaceUni (formatOptionValue v) = true ∧ ¬ '\n' ∈ formatOptionValue v := by
  have hwf2 := hwf
  simp only [wfValue, Bool.and_eq_true] at hwf2
  obtain ⟨⟨⟨hcomma, hnl⟩, hspace⟩, _⟩ := hwf2
  simp only [edgeNotSpace, Bool.and_eq_true] at hspace
  have hmem : ¬ '\n' ∈ v := by simpa using hnl
  unfold formatOptionValue
  split_ifs with h1 h2 h3
  · exact ⟨hspace.2, hmem⟩
  · exact ⟨hspace.2, hmem⟩
  · exact ⟨hspace.2, hmem⟩
  · constructor
    · exact lastNot_append_right _ _ _ (by simp) (by decide)
    · intro hm
      simp only [List.mem_append, List.mem_cons, List.mem_singleton] at hm
      rcases hm with h | h
      · rcases h with h | h
        · exact absurd h (by decide)
        · exact hmem h
      · exact absurd h (by decide)

theorem partOf_tail (kv : Str × Str) (hk : wfKey kv.1 = true) (hv : wfValue kv.2 = true) :
    partOf kv ≠ [] ∧ lastNot isSpaceUni (partOf kv) = true ∧ ¬ '\n' ∈ partOf kv := by
  obtain ⟨hlast, hnl⟩ := fmtVal_tail kv.2 hv
  obtain ⟨hfne, _, _⟩ := fmtVal_shape kv.2 hv
  have hknl : ¬ '\n' ∈ kv.1 := by
    simp only [wfKey, Bool.and_eq_true, List.all_eq_true] at hk
    intro hm
    have := hk.2 '\n' hm
    exact absurd this (by decide)
  refine ⟨?_, ?_, ?_⟩
  · unfold partOf
    simp
  · unfold partOf
    have e : (kv.1 ++ ':' :: ' ' :: formatOptionValue kv.2 : Str)
        = (kv.1 ++ [':', ' ']) ++ formatOptionValue kv.2 := by simp
    rw [e]
    exact lastNot_append_right _ _ _ hfne hlast
  · unfold partOf
    intro hm
    rcases List.mem_append.mp hm with h | h
    · exact hknl h
    · simp only [List.mem_cons] at h
      rcases h with h | h | h
      · exact absurd h (by decide)
      · exact absurd h (by decide)
      · exact hnl h

theorem joinSep_edge : ∀ (parts : List Str),
    (∀ l ∈ parts, l ≠ [] ∧ lastNot isSpaceUni l = true ∧ ¬ '\n' ∈ l) → parts ≠ [] →
    joinSep (strOf ", ") parts ≠ [] ∧
      lastNot isSpaceUni (joinSep (strOf ", ") parts) = true ∧
      ¬ '\n' ∈ joinSep (strOf ", ") parts
  | [], _, hne => absurd rfl hne
  | [x], h, _ => h x (by simp)
  | x :: y :: rest2, h, _ => by
    obtain ⟨hxne, hxlast, hxnl⟩ := h x (by simp)
    obtain ⟨hjne, hjlast, hjnl⟩ :=
      joinSep_edge (y :: rest2) (fun l hl => h l (by simp [hl])) (by simp)
    have hj : joinSep (strOf ", ") (x :: y :: rest2)
        = (x ++ strOf ", ") ++ joinSep (strOf ", ") (y :: rest2) := rfl
    rw [hj]
    refine ⟨?_, ?_, ?_⟩
    · intro hz
      rw [List.append_eq_nil] at hz
      exact hjne hz.2
    · exact lastNot_append_right _ _ _ hjne hjlast
    · intro hm
      rcases List.mem_append.mp hm with h1 | h2
      · rcases List.mem_append.mp h1 with ha | hb
        · exact hxnl ha
        · exact absurd hb (by decide)
      · exact hjnl h2

theorem formatOptions_edge (opts : List (Str × Str)) (hwf : wfOptions opts = true)
    (hne : opts ≠ []) :
    formatOptions opts ≠ [] ∧ lastNot isSpaceUni (formatOptions opts) = true ∧
      ¬ '\n' ∈ formatOptions opts := by
  have hwf2 := hwf
  simp only [wfOptions, Bool.and_eq_true, List.all_eq_true] at hwf2
  obtain ⟨hall, _⟩ := hwf2
  have hperm : (sortStrs (opts.map partOf)).Perm (opts.map partOf) := sortStrs_perm _
  have hpne : sortStrs (opts.map partOf) ≠ [] := by
    intro hz
    have hlen := hperm.length_eq
    rw [hz] at hlen
    cases opts with
    | nil => exact hne rfl
    | cons a b => simp at hlen
  have hmemf : ∀ l ∈ sortStrs (opts.map partOf),
      l ≠ [] ∧ lastNot isSpaceUni l = true ∧ ¬ '\n' ∈ l := by
    intro l hl
    have hl2 : l ∈ opts.map partOf := hperm.mem_iff.mp hl
    obtain ⟨kv, hkv, hpart⟩ := List.mem_map.mp hl2
    have hkv2 := hall kv hkv
    simp only [Bool.and_eq_true] at hkv2
    subst hpart
    exact partOf_tail kv hkv2.1 hkv2.2
  exact joinSep_edge _ hmemf hpne

theorem startsWith_hash_cons (c : Char) (t : Str) (hc : ¬ c = '#') :
    startsWith (c :: t) (strOf "#") = false := by
  cases h : startsWith (c :: t) (strOf "#") with
  | false => rfl
  | true =>
    obtain ⟨t2, ht2⟩ := (startsWith_hash_iff _).mp h
    injection ht2 with h1 h2
    exact absurd h1 hc

/-- The writer's declaration line, structurally: a known keyword, a
space, the quoted name, then either nothing or a comma-space and a
non-empty option string with no newline and no trailing space. -/
theorem formatPackage_split (p : Package) (hwf : wfPackage p = true) :
    ∃ kw tl, formatPackage p = (kw ++ ' ' :: '"' :: p.name) ++ '"' :: tl ∧
      kw ∈ typeOrder ∧
      (tl = [] ∨ ∃ u, tl = ',' :: ' ' :: u ∧ u ≠ [] ∧
        lastNot isSpaceUni u = true ∧ ¬ '\n' ∈ u) := by
  have hwf2 := hwf
  simp only [wfPackage, Bool.and_eq_true] at hwf2
  obtain ⟨⟨hname, hdesc⟩, hcat⟩ := hwf2
  by_cases ht : p.ptype = strOf "tap"
  · refine ⟨strOf "tap", [], ?_, by decide, Or.inl rfl⟩
    unfold formatPackage
    rw [if_pos ht]
    rw [show (strOf "tap \"" : Str) = strOf "tap" ++ ' ' :: '"' :: [] from rfl,
      show (strOf "\"" : Str) = ['"'] from rfl]
    simp [List.append_assoc]
  by_cases hb : p.ptype = strOf "brew"
  · rw [hb] at hcat
    rw [if_neg (by decide), if_pos (by decide)] at hcat
    by_cases hoe : p.options = []
    · refine ⟨strOf "brew", [], ?_, by decide, Or.inl rfl⟩
      unfold formatPackage
      rw [if_neg ht, if_pos hb, if_pos (show p.options.isEmpty = true by rw [hoe]; rfl)]
      rw [show (strOf "brew \"" : Str) = strOf "brew" ++ ' ' :: '"' :: [] from rfl,
        show (strOf "\"" : Str) = ['"'] from rfl]
      simp [List.append_assoc]
    · have hniE : p.options.isEmpty = false := by
        cases hop : p.options with
        | nil => exact absurd hop hoe
        | cons kv rest => rfl
      obtain ⟨hfne, hflast, hfnl⟩ := formatOptions_edge p.options hcat hoe
      refine ⟨strOf "brew", ',' :: ' ' :: formatOptions p.options, ?_, by decide,
        Or.inr ⟨formatOptions p.options, rfl, hfne, hflast, hfnl⟩⟩
      unfold formatPackage
      rw [if_neg ht, if_pos hb, if_neg (show ¬ p.options.isEmpty = true by simp [hniE])]
      rw [show (strOf "brew \"" : Str) = strOf "brew" ++ ' ' :: '"' :: [] from rfl,
        show (strOf "\", " : Str) = '"' :: ',' :: ' ' :: [] from rfl]
      simp [List.append_assoc]
  by_cases hc : p.ptype = strOf "cask"
  · rw [hc] at hcat
    rw [if_neg (by decide), if_pos (by decide)] at hcat
    by_cases hoe : p.options = []
    · refine ⟨strOf "cask", [], ?_, by decide, Or.inl rfl⟩
      unfold formatPackage
      rw [if_neg ht, if_neg hb, if_pos hc,
        if_pos (show p.options.isEmpty = true by rw [hoe]; rfl)]
      rw [show (strOf "cask \"" : Str) = strOf "cask" ++ ' ' :: '"' :: [] from rfl,
        show (strOf "\"" : Str) = ['"'] from rfl]
      simp [List.append_assoc]
    · have hniE : p.options.isEmpty = false := by
        cases hop : p.options with
        | nil => exact absurd hop hoe
        | cons kv rest => rfl
      obtain ⟨hfne, hflast, hfnl⟩ := formatOptions_edge p.options hcat hoe
      refine ⟨strOf "cask", ',' :: ' ' :: formatOptions p.options, ?_, by decide,
        Or.inr ⟨formatOptions p.options, rfl, hfne, hflast, hfnl⟩⟩
      unfold formatPackage
      rw [if_neg ht, if_neg hb, if_pos hc,
        if_neg (show ¬ p.options.isEmpty = true by simp [hniE])]
      rw [show (strOf "cask \"" : Str) = strOf "cask" ++ ' ' :: '"' :: [] from rfl,
        show (strOf "\", " : Str) = '"' :: ',' :: ' ' :: [] from rfl]
      simp [List.append_assoc]
  by_cases hm : p.ptype = strOf "mas"
  · rw [hm] at hcat
    rw [if_neg (by decide), if_neg (by decide), if_pos rfl] at hcat
    simp only [Bool.and_eq_true, Bool.or_eq_true] at hcat
    obtain ⟨hfn0, hrest⟩ := hcat
    have hfn : p.fullName = [] := by simpa [List.isEmpty_iff] using hfn0
    rcases hrest with hoe0 | hid
    · have hoe : p.options = [] := by simpa [List.isEmpty_iff] using hoe0
      refine ⟨strOf "mas", [], ?_, by decide, Or.inl rfl⟩
      unfold formatPackage
      rw [if_neg ht, if_neg hb, if_neg hc, if_pos hm, hoe]
      rw [show optLookup ([] : List (Str × Str)) (strOf "id") = none from rfl]
      rw [show (strOf "mas \"" : Str) = strOf "mas" ++ ' ' :: '"' :: [] from rfl,
        show (strOf "\"" : Str) = ['"'] from rfl]
      simp [List.append_assoc]
    · obtain ⟨kv, hkv⟩ : ∃ kv, p.options = [kv] := by
        cases hop : p.options with
        | nil =>
          rw [hop] at hid
          simp at hid
        | cons kv rest =>
          cases rest with
          | nil => exact ⟨kv, rfl⟩
          | cons kv2 r2 =>
            rw [hop] at hid
            simp at hid
      obtain ⟨k1, v⟩ := kv
      rw [hkv] at hid
      simp only [Bool.and_eq_true, beq_iff_eq] at hid
      obtain ⟨⟨hk1, hkwf⟩, hkne0⟩ := hid
      have hkne : v ≠ [] := by
        intro he
        rw [he] at hkne0
        exact absurd hkne0 (by decide)
      have hv2 := hkwf
      simp only [wfValue, Bool.and_eq_true] at hv2
      obtain ⟨⟨⟨hcm, hnl⟩, hsp⟩, _⟩ := hv2
      simp only [edgeNotSpace, Bool.and_eq_true] at hsp
      have hvnl : ¬ '\n' ∈ v := by simpa using hnl
      have hu_ne : (strOf "id" ++ ':' :: ' ' :: v : Str) ≠ [] := by
        rw [show (strOf "id" : Str) = 'i' :: 'd' :: [] from rfl]
        simp
      have hu_last : lastNot isSpaceUni (strOf "id" ++ ':' :: ' ' :: v) = true := by
        have e : (strOf "id" ++ ':' :: ' ' :: v : Str) = (strOf "id" ++ [':', ' ']) ++ v := by
          simp
        rw [e]
        exact lastNot_append_right _ _ _ hkne hsp.2
      have hu_nl : ¬ '\n' ∈ (strOf "id" ++ ':' :: ' ' :: v : Str) := by
        intro hm2
        rcases List.mem_append.mp hm2 with h1 | h2
        · revert h1
          decide
        · simp only [List.mem_cons] at h2
          rcases h2 with h2 | h2 | h2
          · exact absurd h2 (by decide)
          · exact absurd h2 (by decide)
          · exact hvnl h2
      have hlook : optLookup p.options (strOf "id") = some v := by
        rw [hkv, hk1]
        simp [optLookup]
      refine ⟨strOf "mas", ',' :: ' ' :: (strOf "id" ++ ':' :: ' ' :: v), ?_, by decide,
        Or.inr ⟨_, rfl, hu_ne, hu_last, hu_nl⟩⟩
      unfold formatPackage
      rw [if_neg ht, if_neg hb, if_neg hc, if_pos hm, hlook]
      rw [show p.fullName.isEmpty = true by rw [hfn]; rfl]
      rw [if_pos rfl]
      rw [show (strOf "mas \"" : Str) = strOf "mas" ++ ' ' :: '"' :: [] from rfl,
        show (strOf "\", id: " : Str) = '"' :: ',' :: ' ' :: 'i' :: 'd' :: ':' :: ' ' :: [] from rfl,
        show (strOf "id" : Str) = 'i' :: 'd' :: [] from rfl]
      simp [List.append_assoc]
  by_cases hv : p.ptype = strOf "vscode"
  · refine ⟨strOf "vscode", [], ?_, by decide, Or.inl rfl⟩
    unfold formatPackage
    rw [if_neg ht, if_neg hb, if_neg hc, if_neg hm, if_pos hv]
    rw [show (strOf "vscode \"" : Str) = strOf "vscode" ++ ' ' :: '"' :: [] from rfl,
      show (strOf "\"" : Str) = ['"'] from rfl]
    simp [List.append_assoc]
  by_cases hcur : p.ptype = strOf "cursor"
  · refine ⟨strOf "cursor", [], ?_, by decide, Or.inl rfl⟩
    unfold formatPackage
    rw [if_neg ht, if_neg hb, if_neg hc, if_neg hm, if_neg hv, if_pos hcur]
    rw [show (strOf "cursor \"" : Str) = strOf "cursor" ++ ' ' :: '"' :: [] from rfl,
      show (strOf "\"" : Str) = ['"'] from rfl]
    simp [List.append_assoc]
  by_cases hag : p.ptype = strOf "antigravity"
  · refine ⟨strOf "antigravity", [], ?_, by decide, Or.inl rfl⟩
    unfold formatPackage
    rw [if_neg ht, if_neg hb, if_neg hc, if_neg hm, if_neg hv, if_neg hcur, if_pos hag]
    rw [show (strOf "antigravity \"" : Str) = strOf "antigravity" ++ ' ' :: '"' :: [] from rfl,
      show (strOf "\"" : Str) = ['"'] from rfl]
    simp [List.append_assoc]
  by_cases hgo : p.ptype = strOf "go"
  · refine ⟨strOf "go", [], ?_, by decide, Or.inl rfl⟩
    unfold formatPackage
    rw [if_neg ht, if_neg hb, if_neg hc, if_neg hm, if_neg hv, if_neg hcur, if_neg hag,
      if_pos hgo]
    rw [show (strOf "go \"" : Str) = strOf "go" ++ ' ' :: '"' :: [] from rfl,
      show (strOf "\"" : Str) = ['"'] from rfl]
    simp [List.append_assoc]
  exfalso
  rw [if_neg ht] at hcat
  rw [if_neg (show ¬ ((p.ptype = strOf "brew" || p.ptype = strOf "cask") = true) by
    simp [hb, hc])] at hcat
  rw [if_neg hm, if_neg hv] at hcat
  rw [if_neg (show ¬ (isExtensionType p.ptype = true) by
    simp [isExtensionType, hcur, hag, hgo])] at hcat
  exact Bool.noConfusion hcat

/-- Edge facts of a formatted declaration line: non-empty, stable
under TrimSpace, newline-free, and not a comment. -/
theorem formatPackage_edge (p : Package) (hwf : wfPackage p = true) :
    formatPackage p ≠ [] ∧ headNot isSpaceUni (formatPackage p) = true ∧
      lastNot isSpaceUni (formatPackage p) = true ∧ ¬ '\n' ∈ formatPackage p ∧
      startsWith (formatPackage p) (strOf "#") = false := by
  obtain ⟨kw, tl, hline, hkw, htl⟩ := formatPackage_split p hwf
  have hnl_name : ¬ '\n' ∈ p.name := by
    have hwf2 := hwf
    simp only [wfPackage, Bool.and_eq_true] at hwf2
    have hn := hwf2.1.1
    simp only [wfName, Bool.and_eq_true] at hn
    simpa using hn.2
  have hkfacts : kw ≠ [] ∧ headNot isSpaceUni kw = true ∧
      headNot (fun c => decide (c = '#')) kw = true ∧ ¬ '\n' ∈ kw := by
    simp only [typeOrder, List.mem_cons, List.not_mem_nil, or_false] at hkw
    rcases hkw with h | h | h | h | h | h | h | h <;> subst h <;>
      exact ⟨by decide, by decide, by decide, by decide⟩
  obtain ⟨hkne, hkhead, hkhash, hknl⟩ := hkfacts
  have htlfacts : ('"' :: tl : Str) ≠ [] ∧ lastNot isSpaceUni ('"' :: tl) = true ∧
      ¬ '\n' ∈ ('"' :: tl : Str) := by
    rcases htl with h0 | ⟨u, hu, hune, hulast, hunl⟩
    · subst h0
      exact ⟨by simp, by decide, by decide⟩
    · subst hu
      refine ⟨by simp, ?_, ?_⟩
      · have e : ('"' :: ',' :: ' ' :: u : Str) = ['"', ',', ' '] ++ u := rfl
        rw [e]
        exact lastNot_append_right _ _ _ hune hulast
      · intro hm
        simp only [List.mem_cons] at hm
        rcases hm with h | h | h | h
        · exact absurd h (by decide)
        · exact absurd h (by decide)
        · exact absurd h (by decide)
        · exact hunl h
  obtain ⟨htne, htlast, htnl⟩ := htlfacts
  have hpre_ne : (kw ++ ' ' :: '"' :: p.name : Str) ≠ [] := by
    intro hz
    rw [List.append_eq_nil] at hz
    exact hkne hz.1
  refine ⟨?_, ?_, ?_, ?_, ?_⟩
  · rw [hline]
    simp
  · rw [hline]
    exact headNot_append_left _ _ _ hpre_ne (headNot_append_left _ _ _ hkne hkhead)
  · rw [hline]
    exact lastNot_append_right _ _ _ htne htlast
  · rw [hline]
    intro hm
    rcases List.mem_append.mp hm with h1 | h2
    · rcases List.mem_append.mp h1 with ha | hb
      · exact hknl ha
      · simp only [List.mem_cons] at hb
        rcases hb with h | h | h
        · exact absurd h (by decide)
        · exact absurd h (by decide)
        · exact hnl_name h
    · exact htnl h2
  · rw [hline]
    cases kw with
    | nil => exact absurd rfl hkne
    | cons c cs =>
      have hx : (!(decide (c = '#'))) = true := hkhash
      have hc : ¬ c = '#' := by simpa using hx
      have e : ((c :: cs) ++ ' ' :: '"' :: p.name) ++ '"' :: tl
          = c :: ((cs ++ ' ' :: '"' :: p.name) ++ '"' :: tl) := by simp
      rw [e]
      exact startsWith_hash_cons c _ hc

/-- The scanner step on a formatted declaration line: the record is
appended with the pending description attached (empty or not), and
the pending description is cleared. -/
theorem parseStep_decl (acc : List Package) (pend : Str) (p : Package)
    (hwf : wfPackage p = true) :
    ∃ opts, parseStep (acc, pend) (formatPackage p) =
      (acc ++ [{ ptype := p.ptype, name := p.name, fullName := [], options := opts,
                 description := pend }], []) ∧
      ∀ k, optLookup opts k = optLookup p.options k := by
  obtain ⟨hne, hhead, hlast, hnl, hhash⟩ := formatPackage_edge p hwf
  obtain ⟨opts, hpl, hlk⟩ := parseLine_formatPackage p hwf
  have hnorm : trimSpace (dropCR (formatPackage p)) = formatPackage p :=
    lineNorm_eq_self _ hhead hlast
  refine ⟨opts, ?_, hlk⟩
  cases hf : formatPackage p with
  | nil => exact absurd hf hne
  | cons c cs =>
    rw [hf] at hnorm hpl hhash
    cases pend with
    | nil => simp [parseStep, hnorm, hhash, hpl]
    | cons d ds => simp [parseStep, hnorm, hhash, hpl]

/-- The scanner step on a description comment line `# d`: the
pending description becomes d. -/
theorem parseStep_desc (acc : List Package) (pend d : Str) (hd : wfDesc d = true)
    (hdne : d ≠ []) :
    parseStep (acc, pend) (strOf "# " ++ d) = (acc, d) := by
  have hd2 := hd
  simp only [wfDesc, Bool.or_eq_true, Bool.and_eq_true] at hd2
  rcases hd2 with h0 | ⟨hsp, hnl⟩
  · exact absurd (by simpa [List.isEmpty_iff] using h0) hdne
  · simp only [edgeNotSpace, Bool.and_eq_true] at hsp
    have hline : (strOf "# " ++ d : Str) = '#' :: ' ' :: d := rfl
    have hnorm : trimSpace (dropCR ('#' :: ' ' :: d)) = '#' :: ' ' :: d := by
      apply lineNorm_eq_self
      · rfl
      · have e : ('#' :: ' ' :: d : Str) = ['#', ' '] ++ d := rfl
        rw [e]
        exact lastNot_append_right _ _ _ hdne hsp.2
    have hstrip : goTrimStart ('#' :: ' ' :: d) (strOf "#") = ' ' :: d := rfl
    have htrim : trimSpace (' ' :: d) = d := by
      unfold trimSpace trimBy
      have h1 : trimLeftBy isSpaceUni (' ' :: d) = d := by
        have h2 : trimLeftBy isSpaceUni (' ' :: d) = trimLeftBy isSpaceUni d := by
          unfold trimLeftBy
          rw [List.dropWhile_cons, if_pos (by decide)]
        rw [h2]
        exact trimLeftBy_eq_self isSpaceUni d hsp.1
      rw [h1]
      exact trimRightBy_eq_self isSpaceUni d hsp.2
    rw [hline]
    simp [parseStep, hnorm, startsWith_cons_hash, hstrip, htrim]

/-- The scanner step on the cursor section header: a comment line
whose text becomes the pending description. -/
theorem parseStep_hdr_cursor (acc : List Package) (pend : Str) :
    parseStep (acc, pend) (hdrLine (strOf "cursor")) =
      (acc, strOf "cursor (brewsync extension)") := rfl

/-- The scanner step on the antigravity section header. -/
theorem parseStep_hdr_antigravity (acc : List Package) (pend : Str) :
    parseStep (acc, pend) (hdrLine (strOf "antigravity")) =
      (acc, strOf "antigravity (brewsync extension)") := rfl

/-- The scanner step on the go section header. -/
theorem parseStep_hdr_go (acc : List Package) (pend : Str) :
    parseStep (acc, pend) (hdrLine (strOf "go")) =
      (acc, strOf "go (brewsync extension)") := rfl

/-- A blank line changes nothing, not even the pending description. -/
theorem parseStep_blank (acc : List Package) (pend : Str) :
    parseStep (acc, pend) [] = (acc, pend) := rfl

/-- Scanning the lines of one record (optional description comment,
then the declaration) appends exactly one record carrying the
original description, and clears the pending description.  When the
record has no description comment the pending description must be
empty on entry, or it would leak into the record. -/
theorem parseBlock (acc : List Package) (pend : Str) (p : Package)
    (hwf : wfPackage p = true) (hpend : pend = [] ∨ p.description ≠ []) :
    ∃ opts, List.foldl parseStep (acc, pend) (pkgLines p) =
      (acc ++ [{ ptype := p.ptype, name := p.name, fullName := [], options := opts,
                 description := p.description }], []) ∧
      ∀ k, optLookup opts k = optLookup p.options k := by
  have hdesc : wfDesc p.description = true := by
    have hwf2 := hwf
    simp only [wfPackage, Bool.and_eq_true] at hwf2
    exact hwf2.1.2
  by_cases hd : p.description = []
  · have hpe : pend = [] := by
      rcases hpend with h | h
      · exact h
      · exact absurd hd h
    have hdl : descLines p = [] := by
      unfold descLines
      rw [if_pos (show p.description.isEmpty = true by rw [hd]; rfl)]
    unfold pkgLines
    rw [hdl]
    simp only [List.nil_append, List.foldl_cons, List.foldl_nil]
    subst hpe
    obtain ⟨opts, hstep, hlk⟩ := parseStep_decl acc [] p hwf
    refine ⟨opts, ?_, hlk⟩
    rw [hstep, hd]
  · have hdl : descLines p = [strOf "# " ++ p.description] := by
      unfold descLines
      rw [if_neg (show ¬ p.description.isEmpty = true by simp [List.isEmpty_iff, hd])]
    unfold pkgLines
    rw [hdl]
    simp only [List.cons_append, List.nil_append, List.foldl_cons, List.foldl_nil]
    rw [parseStep_desc acc pend p.description hdesc hd]
    obtain ⟨opts, hstep, hlk⟩ := parseStep_decl acc p.description p hwf
    exact ⟨opts, hstep, hlk⟩

/-- Scanning a whole group of records: every record of the group is
appended in order, each corresponding to its original. -/
theorem parseGroup (ps : List Package) : ∀ (acc : List Package) (pend : Str),
    (∀ p ∈ ps, wfPackage p = true) →
    (pend = [] ∨ ∀ p ∈ ps, p.description ≠ []) →
    ∃ recs, List.foldl parseStep (acc, pend) (groupLines ps) =
      (acc ++ recs, if ps.isEmpty then pend else []) ∧ List.Forall₂ pkgRel recs ps := by
  induction ps with
  | nil =>
    intro acc pend hwf hpend
    exact ⟨[], by simp [groupLines], List.Forall₂.nil⟩
  | cons p ps' ih =>
    intro acc pend hwf hpend
    have hgl : groupLines (p :: ps') = pkgLines p ++ groupLines ps' := by
      simp [groupLines]
    rw [hgl, List.foldl_append]
    have hpend1 : pend = [] ∨ p.description ≠ [] := by
      rcases hpend with h | h
      · exact Or.inl h
      · exact Or.inr (h p (by simp))
    obtain ⟨opts, hblock, hlk⟩ := parseBlock acc pend p (hwf p (by simp)) hpend1
    rw [hblock]
    obtain ⟨recs', hfold, hf2⟩ := ih
      (acc ++ [{ ptype := p.ptype, name := p.name, fullName := [], options := opts,
                 description := p.description }]) []
      (fun q hq => hwf q (by simp [hq])) (Or.inl rfl)
    refine ⟨{ ptype := p.ptype, name := p.name, fullName := [], options := opts,
              description := p.description } :: recs', ?_, ?_⟩
    · rw [hfold]
      simp [List.append_assoc]
    · exact List.Forall₂.cons ⟨rfl, rfl, rfl, rfl, hlk⟩ hf2

theorem forall2_app {α β : Type} {R : α → β → Prop} :
    ∀ {a c : List α} {b d : List β}, List.Forall₂ R a b → List.Forall₂ R c d →
      List.Forall₂ R (a ++ c) (b ++ d) := by
  intro a
  induction a with
  | nil =>
    intro c b d h1 h2
    cases h1
    simpa using h2
  | cons x xs ih =>
    intro c b d h1 h2
    cases h1 with
    | cons hx hxs => exact List.Forall₂.cons hx (ih hxs h2)

theorem forall2_mem_left {α β : Type} {R : α → β → Prop} :
    ∀ {a : List α} {b : List β}, List.Forall₂ R a b → ∀ q ∈ a, ∃ p ∈ b, R q p := by
  intro a
  induction a with
  | nil =>
    intro b h q hq
    exact absurd hq (List.not_mem_nil q)
  | cons x xs ih =>
    intro b h q hq
    cases h with
    | cons hx hxs =>
      rcases List.mem_cons.mp hq with h1 | h2
      · subst h1
        exact ⟨_, by simp, hx⟩
      · obtain ⟨p, hp, hr⟩ := ih hxs q h2
        exact ⟨p, by simp [hp], hr⟩

theorem goLines_line_append (l : Str) (rest : Str) (h : ¬ '\n' ∈ l) :
    goLines (l ++ '\n' :: rest) = l :: goLines rest := by
  induction l with
  | nil => simp [goLines]
  | cons c cs ih =>
    have hc : ¬ c = '\n' := by
      intro he
      exact h (by simp [he])
    have hcs : ¬ '\n' ∈ cs := fun hm => h (by simp [hm])
    have e : ((c :: cs) ++ '\n' :: rest : Str) = c :: (cs ++ '\n' :: rest) := rfl
    rw [e, goLines, if_neg hc, ih hcs]

theorem goLines_terminated (ls : List Str) (h : ∀ l ∈ ls, ¬ '\n' ∈ l) :
    goLines ((ls.map (fun l => l ++ ['\n'])).flatten) = ls := by
  induction ls with
  | nil => rfl
  | cons l ls' ih =>
    simp only [List.map_cons, List.flatten_cons]
    have e : (l ++ ['\n']) ++ (List.map (fun l => l ++ ['\n']) ls').flatten
        = l ++ '\n' :: (List.map (fun l => l ++ ['\n']) ls').flatten := by
      simp [List.append_assoc]
    rw [e, goLines_line_append l _ (h l (by simp)), ih (fun x hx => h x (by simp [hx]))]

theorem groupLines_no_newline (ps : List Package) (hwf : ∀ p ∈ ps, wfPackage p = true) :
    ∀ l ∈ groupLines ps, ¬ '\n' ∈ l := by
  intro l hl
  unfold groupLines at hl
  rw [List.mem_flatten] at hl
  obtain ⟨ls, hls, hlm⟩ := hl
  rw [List.mem_map] at hls
  obtain ⟨p, hp, hpl⟩ := hls
  subst hpl
  unfold pkgLines at hlm
  rcases List.mem_append.mp hlm with h1 | h2
  · unfold descLines at h1
    by_cases hd : p.description.isEmpty = true
    · rw [if_pos hd] at h1
      exact absurd h1 (List.not_mem_nil l)
    · rw [if_neg hd] at h1
      simp only [List.mem_singleton] at h1
      subst h1
      have hwfp := hwf p hp
      simp only [wfPackage, Bool.and_eq_true] at hwfp
      have hdw := hwfp.1.2
      simp only [wfDesc, Bool.or_eq_true, Bool.and_eq_true] at hdw
      rcases hdw with h0 | ⟨_, hnl⟩
      · exact absurd h0 hd
      · intro hm
        rcases List.mem_append.mp hm with ha | hb
        · revert ha
          decide
        · exact absurd hb (by simpa using hnl)
  · simp only [List.mem_singleton] at h2
    subst h2
    obtain ⟨_, _, _, hnl, _⟩ := formatPackage_edge p (hwf p hp)
    exact hnl

theorem chunkStep_eq (X : List Package) (acc : List Str) (t : Str) :
    chunkStep X acc t =
      if (sortByName (X.filter (fun p => p.ptype == t))).isEmpty then acc
      else acc ++ (if isExtensionType t then [[], hdrLine t]
                   else if acc.isEmpty then [] else [[]])
        ++ groupLines (sortByName (X.filter (fun p => p.ptype == t))) := rfl

theorem chunks_no_newline (X : List Package) (hX : ∀ p ∈ X, wfPackage p = true) :
    ∀ (ts : List Str) (acc : List Str), (∀ l ∈ acc, ¬ '\n' ∈ l) →
      ∀ l ∈ List.foldl (chunkStep X) acc ts, ¬ '\n' ∈ l := by
  intro ts
  induction ts with
  | nil =>
    intro acc hacc
    simpa using hacc
  | cons t ts' ih =>
    intro acc hacc
    simp only [List.foldl_cons]
    apply ih
    intro l hl
    rw [chunkStep_eq] at hl
    by_cases hpe : (sortByName (X.filter (fun p => p.ptype == t))).isEmpty = true
    · rw [if_pos hpe] at hl
      exact hacc l hl
    · rw [if_neg hpe] at hl
      rcases List.mem_append.mp hl with h1 | h2
      · rcases List.mem_append.mp h1 with ha | hb
        · exact hacc l ha
        · by_cases he : isExtensionType t = true
          · rw [if_pos he] at hb
            simp only [isExtensionType, Bool.or_eq_true, decide_eq_true_eq] at he
            simp only [List.mem_cons, List.not_mem_nil, or_false] at hb
            rcases hb with hb | hb
            · subst hb
              simp
            · subst hb
              rcases he with (h | h) | h <;> subst h <;> decide
          · rw [if_neg he] at hb
            by_cases ha2 : acc.isEmpty = true
            · rw [if_pos ha2] at hb
              exact absurd hb (List.not_mem_nil l)
            · rw [if_neg ha2] at hb
              simp only [List.mem_singleton] at hb
              subst hb
              simp
      · have hwfG : ∀ p ∈ sortByName (X.filter (fun p => p.ptype == t)),
            wfPackage p = true := by
          intro p hp
          have hp2 : p ∈ X.filter (fun p => p.ptype == t) :=
            (sortByName_perm _).mem_iff.mp hp
          rw [List.mem_filter] at hp2
          exact hX p hp2.1
        exact groupLines_no_newline _ hwfG l h2

/-- Parsing the line stream produced by the writer's per-category
loop: starting from already-parsed lines, every later chunk appends
records corresponding, in order, to the sorted per-category groups. -/
theorem parseFold_chunks (X : List Package) (hX : ∀ p ∈ X, wfPackage p = true)
    (hext : ∀ p ∈ X, isExtensionType p.ptype = true → p.description ≠ []) :
    ∀ (ts : List Str) (acc : List Str) (racc : List Package),
      List.foldl parseStep ([], []) acc = (racc, []) →
      ∃ recs,
        List.foldl parseStep ([], []) (List.foldl (chunkStep X) acc ts) =
          (racc ++ recs, []) ∧
        List.Forall₂ pkgRel recs
          ((ts.map (fun t => sortByName (X.filter (fun p => p.ptype == t)))).flatten) := by
  intro ts
  induction ts with
  | nil =>
    intro acc racc hacc
    refine ⟨[], ?_, List.Forall₂.nil⟩
    simpa using hacc
  | cons t ts' ih =>
    intro acc racc hacc
    simp only [List.foldl_cons, List.map_cons, List.flatten_cons]
    set G := sortByName (X.filter (fun p => p.ptype == t)) with hG
    by_cases hpe : G.isEmpty = true
    · have hstep : chunkStep X acc t = acc := by
        rw [chunkStep_eq, ← hG, if_pos hpe]
      rw [hstep]
      obtain ⟨recs, hfold, hf2⟩ := ih acc racc hacc
      refine ⟨recs, hfold, ?_⟩
      have hGnil : G = [] := by simpa [List.isEmpty_iff] using hpe
      rw [hGnil]
      simpa using hf2
    · have hpe2 : G.isEmpty = false := by
        cases h : G.isEmpty with
        | false => rfl
        | true => exact absurd h hpe
      have hstep : chunkStep X acc t = acc ++ (if isExtensionType t then [[], hdrLine t]
          else if acc.isEmpty then [] else [[]]) ++ groupLines G := by
        rw [chunkStep_eq, ← hG, if_neg hpe]
      rw [hstep]
      have hGmem : ∀ p ∈ G, p ∈ X ∧ p.ptype = t := by
        intro p hp
        have hp2 : p ∈ X.filter (fun p => p.ptype == t) := by
          rw [hG] at hp
          exact (sortByName_perm _).mem_iff.mp hp
        rw [List.mem_filter] at hp2
        exact ⟨hp2.1, by simpa using hp2.2⟩
      have hGwf : ∀ p ∈ G, wfPackage p = true := fun p hp => hX p (hGmem p hp).1
      by_cases he : isExtensionType t = true
      · rw [if_pos he]
        have hdesc : ∀ p ∈ G, p.description ≠ [] := by
          intro p hp
          have h2 := hGmem p hp
          apply hext p h2.1
          rw [h2.2]
          exact he
        have hhdr : ∃ w, parseStep (racc, []) (hdrLine t) = (racc, w) := by
          have he2 := he
          simp only [isExtensionType, Bool.or_eq_true, decide_eq_true_eq] at he2
          rcases he2 with (h | h) | h
          · subst h
            exact ⟨_, parseStep_hdr_cursor racc []⟩
          · subst h
            exact ⟨_, parseStep_hdr_antigravity racc []⟩
          · subst h
            exact ⟨_, parseStep_hdr_go racc []⟩
        obtain ⟨w, hw⟩ := hhdr
        obtain ⟨recsG, hfoldG, hf2G⟩ := parseGroup G racc w hGwf (Or.inr hdesc)
        have hmid : List.foldl parseStep (racc, ([] : Str)) [[], hdrLine t] = (racc, w) := by
          simp only [List.foldl_cons, List.foldl_nil, parseStep_blank]
          exact hw
        have hacc' : List.foldl parseStep ([], ([] : Str))
            (acc ++ [[], hdrLine t] ++ groupLines G) = (racc ++ recsG, []) := by
          rw [List.foldl_append, List.foldl_append, hacc, hmid, hfoldG, hpe2]
          simp
        obtain ⟨recs', hfold', hf2'⟩ := ih (acc ++ [[], hdrLine t] ++ groupLines G)
          (racc ++ recsG) hacc'
        refine ⟨recsG ++ recs', ?_, forall2_app hf2G hf2'⟩
        rw [hfold', List.append_assoc]
      · rw [if_neg he]
        have hmid : List.foldl parseStep (racc, ([] : Str))
            (if acc.isEmpty then ([] : List Str) else [[]]) = (racc, []) := by
          by_cases ha : acc.isEmpty = true
          · rw [if_pos ha]
            rfl
          · rw [if_neg ha]
            simp only [List.foldl_cons, List.foldl_nil, parseStep_blank]
        obtain ⟨recsG, hfoldG, hf2G⟩ := parseGroup G racc [] hGwf (Or.inl rfl)
        have hacc' : List.foldl parseStep ([], ([] : Str))
            (acc ++ (if acc.isEmpty then ([] : List Str) else [[]]) ++ groupLines G) =
            (racc ++ recsG, []) := by
          rw [List.foldl_append, List.foldl_append, hacc, hmid, hfoldG, hpe2]
          simp
        obtain ⟨recs', hfold', hf2'⟩ := ih
          (acc ++ (if acc.isEmpty then ([] : List Str) else [[]]) ++ groupLines G)
          (racc ++ recsG) hacc'
        refine ⟨recsG ++ recs', ?_, forall2_app hf2G hf2'⟩
        rw [hfold', List.append_assoc]

theorem filter_ne_comm (t t2 : Str) (hne : t ≠ t2) (X : List Package) :
    (X.filter (fun p => !(p.ptype == t))).filter (fun p => p.ptype == t2)
      = X.filter (fun p => p.ptype == t2) := by
  rw [List.filter_filter]
  apply List.filter_congr
  intro q hq
  cases hq2 : (q.ptype == t2) with
  | false => rw [Bool.false_and]
  | true =>
    rw [Bool.true_and]
    have hq3 : q.ptype = t2 := by simpa using hq2
    have h4 : (q.ptype == t) = false := by
      rw [hq3]
      simp [Ne.symm hne]
    rw [h4]
    rfl

theorem filter_partition : ∀ (ts : List Str), List.Pairwise (fun a b => a ≠ b) ts →
    ∀ (X : List Package), (∀ p ∈ X, p.ptype ∈ ts) →
    ((ts.map (fun t => X.filter (fun p => p.ptype == t))).flatten).Perm X
  | [], _, X, hX => by
    cases X with
    | nil => exact List.Perm.refl _
    | cons p ps => exact absurd (hX p (by simp)) (List.not_mem_nil _)
  | t :: ts2, hpw, X, hX => by
    simp only [List.map_cons, List.flatten_cons]
    have hne : ∀ t2 ∈ ts2, t ≠ t2 := fun t2 ht2 => List.rel_of_pairwise_cons hpw ht2
    have hcong : ∀ t2 ∈ ts2, X.filter (fun p => p.ptype == t2)
        = (X.filter (fun p => !(p.ptype == t))).filter (fun p => p.ptype == t2) := by
      intro t2 ht2
      exact (filter_ne_comm t t2 (hne t2 ht2) X).symm
    have hmapeq : ts2.map (fun t2 => X.filter (fun p => p.ptype == t2))
        = ts2.map (fun t2 => (X.filter (fun p => !(p.ptype == t))).filter
            (fun p => p.ptype == t2)) := List.map_congr_left hcong
    rw [hmapeq]
    have hXrest : ∀ p ∈ X.filter (fun p => !(p.ptype == t)), p.ptype ∈ ts2 := by
      intro p hp
      rw [List.mem_filter] at hp
      have hpt := hX p hp.1
      rcases List.mem_cons.mp hpt with h | h
      · exfalso
        have h2 := hp.2
        rw [h] at h2
        simp at h2
      · exact h
    have hperm := filter_partition ts2 (List.Pairwise.of_cons hpw)
      (X.filter (fun p => !(p.ptype == t))) hXrest
    exact (List.Perm.append_left (X.filter (fun p => p.ptype == t)) hperm).trans
      (List.filter_append_perm _ X)

theorem forall2_map_perm (f g : Str → List Package) (h : ∀ t, (f t).Perm (g t)) :
    ∀ ts : List Str, List.Forall₂ (fun a b => a.Perm b) (ts.map f) (ts.map g) := by
  intro ts
  induction ts with
  | nil => exact List.Forall₂.nil
  | cons t ts2 ih => exact List.Forall₂.cons (h t) ih

theorem wfPackage_ptype_mem (p : Package) (hwf : wfPackage p = true) :
    p.ptype ∈ typeOrder := by
  have hwf2 := hwf
  simp only [wfPackage, Bool.and_eq_true] at hwf2
  obtain ⟨_, hcat⟩ := hwf2
  by_cases ht : p.ptype = strOf "tap"
  · rw [ht]
    decide
  by_cases hb : p.ptype = strOf "brew"
  · rw [hb]
    decide
  by_cases hc : p.ptype = strOf "cask"
  · rw [hc]
    decide
  by_cases hm : p.ptype = strOf "mas"
  · rw [hm]
    decide
  by_cases hv : p.ptype = strOf "vscode"
  · rw [hv]
    decide
  by_cases hcur : p.ptype = strOf "cursor"
  · rw [hcur]
    decide
  by_cases hag : p.ptype = strOf "antigravity"
  · rw [hag]
    decide
  by_cases hgo : p.ptype = strOf "go"
  · rw [hgo]
    decide
  exfalso
  rw [if_neg ht] at hcat
  rw [if_neg (show ¬ ((p.ptype = strOf "brew" || p.ptype = strOf "cask") = true) by
    simp [hb, hc])] at hcat
  rw [if_neg hm, if_neg hv] at hcat
  rw [if_neg (show ¬ (isExtensionType p.ptype = true) by
    simp [isExtensionType, hcur, hag, hgo])] at hcat
  exact Bool.noConfusion hcat

theorem wfPackage_ext_desc (p : Package) (hwf : wfPackage p = true)
    (he : isExtensionType p.ptype = true) : p.description ≠ [] := by
  have hwf2 := hwf
  simp only [wfPackage, Bool.and_eq_true] at hwf2
  obtain ⟨_, hcat⟩ := hwf2
  have he2 := he
  simp only [isExtensionType, Bool.or_eq_true, decide_eq_true_eq] at he2
  have hred : (p.options.isEmpty && !p.description.isEmpty) = true := by
    rcases he2 with (h | h) | h <;>
      (rw [h] at hcat
       rw [if_neg (by decide), if_neg (by decide), if_neg (by decide), if_neg (by decide),
         if_pos (by decide)] at hcat
       exact hcat)
  simp only [Bool.and_eq_true] at hred
  intro hd
  have h2 := hred.2
  rw [hd] at h2
  exact absurd h2 (by decide)

theorem distinctPkgKeys_unique : ∀ (X : List Package), distinctPkgKeys X = true →
    ∀ p ∈ X, ∀ q ∈ X, packageKey p = packageKey q → p = q := by
  intro X
  induction X with
  | nil =>
    intro _ p hp
    exact absurd hp (List.not_mem_nil p)
  | cons x xs ih =>
    intro hd p hp q hq hk
    simp only [distinctPkgKeys, Bool.and_eq_true] at hd
    obtain ⟨hnc, hd2⟩ := hd
    have hncm : ∀ r ∈ xs, packageKey r ≠ packageKey x := by
      intro r hr he
      have hck : containsKey xs (packageKey x) = true := by
        unfold containsKey
        rw [List.any_eq_true]
        exact ⟨r, hr, by simp [he]⟩
      rw [hck] at hnc
      exact absurd hnc (by decide)
    rcases List.mem_cons.mp hp with hp1 | hp2
    · rcases List.mem_cons.mp hq with hq1 | hq2
      · rw [hp1, hq1]
      · exfalso
        subst hp1
        exact hncm q hq2 hk.symm
    · rcases List.mem_cons.mp hq with hq1 | hq2
      · exfalso
        subst hq1
        exact hncm p hp2 hk
      · exact ih hd2 p hp2 q hq2 hk

theorem forall2_key_map : ∀ {recs ps : List Package}, List.Forall₂ pkgRel recs ps →
    recs.map packageKey = ps.map packageKey := by
  intro recs
  induction recs with
  | nil =>
    intro ps h
    cases h
    rfl
  | cons q qs ih =>
    intro ps h
    cases h with
    | cons hq hqs =>
      simp only [List.map_cons]
      rw [ih hqs]
      congr 1
      unfold packageKey
      rw [hq.1, hq.2.1]

/- ---------------------------------------------------------------
   C1: round trip
   --------------------------------------------------------------- -/

/-- C1 counterexample: a single cursor record with no description.
The writer emits the section header comment
`# cursor (brewsync extension)` before the group, and the parser
attaches that comment as the description of the record that follows,
so parse(format(X)) preserves the identity key but not the
description. -/
theorem C1_counterexample :
    (ParseString (Format [NewPackage (strOf "cursor") (strOf "a")])).map packageKey =
      [NewPackage (strOf "cursor") (strOf "a")].map packageKey ∧
    (ParseString (Format [NewPackage (strOf "cursor") (strOf "a")])).map Package.description =
      [strOf "cursor (brewsync extension)"] ∧
    [NewPackage (strOf "cursor") (strOf "a")].map Package.description = [[]] := by
  refine ⟨by decide, by decide, by decide⟩

/-- C1 (amended): the round trip holds on the well-formed fragment.
For a non-empty package set X whose records all satisfy wfPackage —
the category is one of the eight known ones; tap, vscode, cursor,
antigravity and go records carry no options (the writer drops them);
cursor, antigravity and go records carry a description (otherwise the
parser attaches the section header comment to the first record); mas
records have no FullName and at most an id option; names, values and
descriptions avoid the quote, comma, newline and edge-whitespace
characters the grammar reserves — and whose identity keys are
pairwise distinct, ParseString (Format X) reproduces the identity
keys of X up to order, and for each original record the matching
parsed record has the same category, name, description and option
map. -/
theorem C1_roundtrip (X : List Package) (_hne : X ≠ []) (hwf : wfSet X = true) :
    ((ParseString (Format X)).map packageKey).Perm (X.map packageKey) ∧
    ∀ p ∈ X, ∀ q ∈ ParseString (Format X), packageKey q = packageKey p →
      q.ptype = p.ptype ∧ q.name = p.name ∧ q.description = p.description ∧
      ∀ k, optLookup q.options k = optLookup p.options k := by
  have hwf2 := hwf
  simp only [wfSet, Bool.and_eq_true, List.all_eq_true] at hwf2
  obtain ⟨hall, hdk⟩ := hwf2
  have hX : ∀ p ∈ X, wfPackage p = true := fun p hp => hall p hp
  have hext : ∀ p ∈ X, isExtensionType p.ptype = true → p.description ≠ [] :=
    fun p hp he => wfPackage_ext_desc p (hX p hp) he
  obtain ⟨recs, hfold, hf2⟩ := parseFold_chunks X hX hext typeOrder [] [] rfl
  have hnl : ∀ l ∈ formatLines X, ¬ '\n' ∈ l := by
    unfold formatLines
    exact chunks_no_newline X hX typeOrder [] (by simp)
  have hgl : goLines (Format X) = formatLines X := by
    unfold Format
    exact goLines_terminated _ hnl
  have hps : ParseString (Format X) = recs := by
    unfold ParseString
    rw [hgl]
    have hfl : formatLines X = List.foldl (chunkStep X) [] typeOrder := rfl
    rw [hfl, hfold]
    simp
  set srt := (typeOrder.map (fun t => sortByName (X.filter (fun p => p.ptype == t)))).flatten
    with hsrt
  have hperm : srt.Perm X := by
    rw [hsrt]
    have h1 := forall2_map_perm
      (fun t => sortByName (X.filter (fun p => p.ptype == t)))
      (fun t => X.filter (fun p => p.ptype == t))
      (fun t => sortByName_perm _) typeOrder
    exact (List.Perm.flatten_congr h1).trans
      (filter_partition typeOrder (by decide) X (fun p hp => wfPackage_ptype_mem p (hX p hp)))
  refine ⟨?_, ?_⟩
  · rw [hps, forall2_key_map hf2]
    exact hperm.map packageKey
  · intro p hp q hq hk
    rw [hps] at hq
    obtain ⟨p2, hp2, hrel⟩ := forall2_mem_left hf2 q hq
    have hp2X : p2 ∈ X := hperm.mem_iff.mp hp2
    have hkq : packageKey q = packageKey p2 := by
      unfold packageKey
      rw [hrel.1, hrel.2.1]
    have hpp : p2 = p := distinctPkgKeys_unique X hdk p2 hp2X p hp (by rw [← hkq]; exact hk)
    subst hpp
    exact ⟨hrel.1, hrel.2.1, hrel.2.2.2.1, hrel.2.2.2.2⟩

/-- Witness for C1: a concrete two-record well-formed set (a brew
formula with an option and a go extension record with a description)
on which the amended round trip is instantiated. -/
theorem C1_roundtrip_witness :
    ([⟨strOf "brew", strOf "git", [], [(strOf "args", strOf "HEAD")], []⟩,
      ⟨strOf "go", strOf "gopls", [], [], strOf "Go language server"⟩] : List Package) ≠ [] ∧
    wfSet [⟨strOf "brew", strOf "git", [], [(strOf "args", strOf "HEAD")], []⟩,
      ⟨strOf "go", strOf "gopls", [], [], strOf "Go language server"⟩] = true ∧
    (((ParseString (Format [⟨strOf "brew", strOf "git", [], [(strOf "args", strOf "HEAD")], []⟩,
        ⟨strOf "go", strOf "gopls", [], [], strOf "Go language server"⟩])).map packageKey).Perm
      ([⟨strOf "brew", strOf "git", [], [(strOf "args", strOf "HEAD")], []⟩,
        ⟨strOf "go", strOf "gopls", [], [], strOf "Go language server"⟩].map packageKey) ∧
     ∀ p ∈ ([⟨strOf "brew", strOf "git", [], [(strOf "args", strOf "HEAD")], []⟩,
        ⟨strOf "go", strOf "gopls", [], [], strOf "Go language server"⟩] : List Package),
       ∀ q ∈ ParseString (Format [⟨strOf "brew", strOf "git", [], [(strOf "args", strOf "HEAD")], []⟩,
        ⟨strOf "go", strOf "gopls", [], [], strOf "Go language server"⟩]),
       packageKey q = packageKey p →
         q.ptype = p.ptype ∧ q.name = p.name ∧ q.description = p.description ∧
         ∀ k, optLookup q.options k = optLookup p.options k) :=
  ⟨by decide, by decide,
    C1_roundtrip [⟨strOf "brew", strOf "git", [], [(strOf "args", strOf "HEAD")], []⟩,
      ⟨strOf "go", strOf "gopls", [], [], strOf "Go language server"⟩] (by decide) (by decide)⟩

end BrewSync
